import Mathlib

set_option maxRecDepth 100000

/-!
Shallow embedding of the polysafe-gitfixer core (directory capability,
hash-chained audit log, transactional filesystem engine) and proofs about
the frozen claims.

Modelling conventions:
* A canonical absolute path is a list of component strings (`CPath`).
* A raw path as handed to the API is a flag (absolute or not) plus a list
  of components (`Comp`), mirroring `std::path::Path::components()`, which
  strips `.` except as a leading component and keeps `..`.
* The filesystem is a partial map from canonical paths to nodes
  (file with content, directory, or symlink carrying a raw target path).
* `canonicalize` models POSIX `realpath` as used by `Path::canonicalize`:
  components are resolved left to right, symlinks are followed (with fuel
  standing in for the kernel's ELOOP limit; any failure is reported to the
  caller the same way an `io::Error` from `canonicalize()` is), and `..`
  pops the already-resolved prefix.
-/

namespace Polysafe

/-- Path component as produced by `Path::components()`: a normal component,
`..`, or `.`. -/
inductive Comp where
  | normal (s : String)
  | parentDir
  | curDir
deriving DecidableEq

/-- A raw path value: whether it is absolute, and its components. -/
structure RawPath where
  absolute : Bool
  comps : List Comp
deriving DecidableEq

/-- A canonical absolute path: the list of its components, symlink-free. -/
abbrev CPath := List String

/-- Boolean component-wise path prefix test; models Rust
`Path::starts_with`, which compares whole components. -/
def compPre : CPath → CPath → Bool
  | [], _ => true
  | _ :: _, [] => false
  | a :: as, b :: bs => a == b && compPre as bs

/-- A filesystem node: regular file with content, directory, or symlink. -/
inductive Node where
  | file (content : String)
  | dir
  | symlink (target : RawPath)
deriving DecidableEq

/-- The filesystem: a partial map from canonical paths to nodes. -/
def Fs : Type := CPath → Option Node

/-- Insert (create or overwrite) a node at a path. -/
def fsInsert (fs : Fs) (p : CPath) (n : Node) : Fs :=
  fun q => if q = p then some n else fs q

/-- Remove the single node at a path (models `fs::remove_file` /
`fs::remove_dir`; removing a missing node is a no-op, matching the
swallowed error in rollback). -/
def removeNode (fs : Fs) (p : CPath) : Fs :=
  fun q => if q = p then none else fs q

/-- Remove a whole subtree (models `fs::remove_dir_all`). -/
def removeSubtree (fs : Fs) (p : CPath) : Fs :=
  fun q => if compPre p q then none else fs q

/-- Rename a node and its subtree (models `fs::rename`).  POSIX rename
fails when the source does not exist; a failed rename leaves the
filesystem unchanged. -/
def renamePath (fs : Fs) (src : CPath) (dst : CPath) : Fs :=
  if (fs src).isNone then fs
  else fun q =>
    if compPre src q then none
    else if compPre dst q then fs (src ++ q.drop dst.length)
    else fs q

/-- Whether a directory exists at the path (models `Path::is_dir` on a
canonical path). -/
def isDirAt (fs : Fs) (p : CPath) : Bool :=
  match fs p with
  | some .dir => true
  | _ => false

/-- Model of POSIX `realpath` as invoked by `Path::canonicalize`.
`cur` is the already-resolved canonical prefix; components are consumed
left to right; every named component must exist; symlinks are resolved
recursively.  The fuel bounds symlink recursion (ELOOP); exhaustion is a
failure, like any other `io::Error` from `canonicalize()`. -/
def canonicalize (fs : Fs) : Nat → CPath → List Comp → Option CPath
  | 0, _, _ => none
  | _ + 1, cur, [] => some cur
  | fuel + 1, cur, c :: rest =>
    match c with
    | .curDir => canonicalize fs fuel cur rest
    | .parentDir => canonicalize fs fuel cur.dropLast rest
    | .normal s =>
      match fs (cur ++ [s]) with
      | none => none
      | some (.file _) => canonicalize fs fuel (cur ++ [s]) rest
      | some .dir => canonicalize fs fuel (cur ++ [s]) rest
      | some (.symlink t) =>
        match canonicalize fs fuel (if t.absolute then [] else cur) t.comps with
        | none => none
        | some cur' => canonicalize fs fuel cur' rest

/-- Fuel used when the capability canonicalizes a joined path: ample for
the paths of this development, standing in for the kernel's symlink
limit. -/
def canonFuel (p : RawPath) : Nat := 255 + p.comps.length

/-- Canonicalize a raw path starting from the filesystem root. -/
def canonicalizePath (fs : Fs) (p : RawPath) : Option CPath :=
  canonicalize fs (canonFuel p) (if p.absolute then [] else []) p.comps

/-- Permission triple granted to a capability. -/
structure Permissions where
  read : Bool
  write : Bool
  delete : Bool
deriving DecidableEq

/-- Full permissions (read, write, delete). -/
def Permissions.full : Permissions := ⟨true, true, true⟩

/-- Read-only permissions. -/
def Permissions.read_only : Permissions := ⟨true, false, false⟩

/-- Read and write, but no delete. -/
def Permissions.read_write : Permissions := ⟨true, true, false⟩

/-- Componentwise order on permission triples: `a` grants no more than
`b`. -/
def permLe (a b : Permissions) : Bool :=
  (!a.read || b.read) && (!a.write || b.write) && (!a.delete || b.delete)

/-- Errors of the capability layer (`CapabilityError`). `Io` is collapsed
to a payload-free constructor; `Serialization`-style payloads retain the
data the checks depend on. -/
inductive CapabilityError where
  | pathTraversal (root : CPath) (attempted_path : RawPath)
  | pathNotFound (p : RawPath)
  | permissionDenied (operation : String) (havePerms : Permissions)
  | invalidRoot (p : RawPath)
  | ioErr
deriving DecidableEq

/-- Directory capability: canonical root plus permissions
(`DirCapability`). -/
structure DirCapability where
  root : CPath
  permissions : Permissions
deriving DecidableEq

/-- Turn a canonical path back into a path value (canonical paths are
absolute by construction). -/
def cpathToPath (c : CPath) : RawPath := ⟨true, c.map Comp.normal⟩

/-- Whether a path value is absolute (models `Path::is_absolute`). -/
def pathIsAbsolute (p : RawPath) : Bool := p.absolute

/-- Model of `DirCapability::resolve`: reject absolute inputs, join with
the root, canonicalize, and require the canonical result to have the root
as a component-wise prefix. -/
def DirCapability.resolve (cap : DirCapability) (fs : Fs) (relative : RawPath) :
    Except CapabilityError CPath :=
  if pathIsAbsolute relative then
    .error (.pathTraversal cap.root relative)
  else
    let joined : RawPath := ⟨true, cap.root.map Comp.normal ++ relative.comps⟩
    match canonicalizePath fs joined with
    | none => .error (.pathNotFound joined)
    | some canonical =>
      if compPre cap.root canonical then .ok canonical
      else .error (.pathTraversal cap.root relative)

/-- Model of `DirCapability::resolve_for_creation`: reject absolute
inputs, canonicalize only the parent of the joined path (which must exist
and lie under the root), and append the raw leaf.  `Path::file_name`
yields nothing when the path ends in `..` (or is empty), which the code
surfaces as `PathNotFound`. -/
def DirCapability.resolve_for_creation (cap : DirCapability) (fs : Fs)
    (relative : RawPath) : Except CapabilityError CPath :=
  if pathIsAbsolute relative then
    .error (.pathTraversal cap.root relative)
  else
    let joined : RawPath := ⟨true, cap.root.map Comp.normal ++ relative.comps⟩
    match joined.comps.getLast? with
    | none => .error (.pathNotFound joined)
    | some .parentDir => .error (.pathNotFound joined)
    | some .curDir => .error (.pathNotFound joined)
    | some (.normal filename) =>
      let parent : RawPath := ⟨true, joined.comps.dropLast⟩
      match canonicalizePath fs parent with
      | none => .error (.pathNotFound parent)
      | some canonical_parent =>
        if compPre cap.root canonical_parent then
          .ok (canonical_parent ++ [filename])
        else .error (.pathTraversal cap.root relative)

/-- Model of `DirCapability::require_read`. -/
def DirCapability.require_read (cap : DirCapability) : Except CapabilityError Unit :=
  if cap.permissions.read then .ok () else
    .error (.permissionDenied "read" cap.permissions)

/-- Model of `DirCapability::require_write`. -/
def DirCapability.require_write (cap : DirCapability) : Except CapabilityError Unit :=
  if cap.permissions.write then .ok () else
    .error (.permissionDenied "write" cap.permissions)

/-- Model of `DirCapability::require_delete`. -/
def DirCapability.require_delete (cap : DirCapability) : Except CapabilityError Unit :=
  if cap.permissions.delete then .ok () else
    .error (.permissionDenied "delete" cap.permissions)

/-- Model of `DirCapability::subcapability`: resolve the subdirectory,
require it to be a directory, and restrict the requested permissions by
the parent's componentwise. -/
def DirCapability.subcapability (cap : DirCapability) (fs : Fs)
    (subdir : RawPath) (permissions : Permissions) :
    Except CapabilityError DirCapability :=
  match cap.resolve fs subdir with
  | .error e => .error e
  | .ok resolved =>
    if isDirAt fs resolved then
      .ok ⟨resolved,
        ⟨permissions.read && cap.permissions.read,
         permissions.write && cap.permissions.write,
         permissions.delete && cap.permissions.delete⟩⟩
    else
      .error (.invalidRoot (cpathToPath resolved))

/-! ### SHA-256

Pure implementation over `Nat` (all word arithmetic explicitly reduced
modulo `2 ^ 32`), byte lists, and lowercase hex encoding, mirroring the
`ring::digest::SHA256` + `hex::encode` combination used by the audit
log. -/

/-- Reduce to a 32-bit word. -/
def w32 (n : Nat) : Nat := n % 4294967296

/-- Right-rotate a 32-bit word by `n` bits. -/
def rotr32 (x n : Nat) : Nat := w32 (x / 2 ^ n + x * 2 ^ (32 - n))

/-- Bitwise complement of a 32-bit word. -/
def not32 (x : Nat) : Nat := 4294967295 - x

/-- SHA-256 `Ch` function. -/
def shaCh (x y z : Nat) : Nat := (x &&& y) ^^^ (not32 x &&& z)

/-- SHA-256 `Maj` function. -/
def shaMaj (x y z : Nat) : Nat := (x &&& y) ^^^ (x &&& z) ^^^ (y &&& z)

/-- SHA-256 big sigma 0. -/
def bSig0 (x : Nat) : Nat := rotr32 x 2 ^^^ rotr32 x 13 ^^^ rotr32 x 22

/-- SHA-256 big sigma 1. -/
def bSig1 (x : Nat) : Nat := rotr32 x 6 ^^^ rotr32 x 11 ^^^ rotr32 x 25

/-- SHA-256 small sigma 0. -/
def sSig0 (x : Nat) : Nat := rotr32 x 7 ^^^ rotr32 x 18 ^^^ x / 2 ^ 3

/-- SHA-256 small sigma 1. -/
def sSig1 (x : Nat) : Nat := rotr32 x 17 ^^^ rotr32 x 19 ^^^ x / 2 ^ 10

/-- The 64 SHA-256 round constants. -/
def shaK : List Nat :=
  [1116352408, 1899447441, 3049323471, 3921009573, 961987163,
   1508970993, 2453635748, 2870763221, 3624381080, 310598401,
   607225278, 1426881987, 1925078388, 2162078206, 2614888103,
   3248222580, 3835390401, 4022224774, 264347078, 604807628,
   770255983, 1249150122, 1555081692, 1996064986, 2554220882,
   2821834349, 2952996808, 3210313671, 3336571891, 3584528711,
   113926993, 338241895, 666307205, 773529912, 1294757372,
   1396182291, 1695183700, 1986661051, 2177026350, 2456956037,
   2730485921, 2820302411, 3259730800, 3345764771, 3516065817,
   3600352804, 4094571909, 275423344, 430227734, 506948616,
   659060556, 883997877, 958139571, 1322822218, 1537002063,
   1747873779, 1955562222, 2024104815, 2227730452, 2361852424,
   2428436474, 2756734187, 3204031479, 3329325298]

/-- SHA-256 initial hash state. -/
structure Sha8 where
  a : Nat
  b : Nat
  c : Nat
  d : Nat
  e : Nat
  f : Nat
  g : Nat
  h : Nat

/-- Initial SHA-256 chaining value. -/
def shaInit : Sha8 :=
  ⟨1779033703, 3144134277, 1013904242, 2773480762,
   1359893119, 2600822924, 528734635, 1541459225⟩

/-- Pack big-endian 4-byte groups into 32-bit words. -/
def toWords : List Nat → List Nat
  | a :: b :: c :: d :: rest => (((a * 256 + b) * 256 + c) * 256 + d) :: toWords rest
  | _ => []

/-- Extend the 16-word schedule by the given number of extra words. -/
def extendW (ws : List Nat) : Nat → List Nat
  | 0 => ws
  | n + 1 =>
    let k := ws.length
    let w := w32 (ws.getD (k - 16) 0 + sSig0 (ws.getD (k - 15) 0) +
      ws.getD (k - 7) 0 + sSig1 (ws.getD (k - 2) 0))
    extendW (ws ++ [w]) n

/-- One SHA-256 round, consuming a (round constant, schedule word) pair. -/
def shaRound (s : Sha8) (kw : Nat × Nat) : Sha8 :=
  let t1 := w32 (s.h + bSig1 s.e + shaCh s.e s.f s.g + kw.1 + kw.2)
  let t2 := w32 (bSig0 s.a + shaMaj s.a s.b s.c)
  ⟨w32 (t1 + t2), s.a, s.b, s.c, w32 (s.d + t1), s.e, s.f, s.g⟩

/-- Compress one 64-byte block into the chaining state. -/
def compressBlock (h : Sha8) (block : List Nat) : Sha8 :=
  let ws := extendW (toWords block) 48
  let s := (shaK.zip ws).foldl shaRound h
  ⟨w32 (h.a + s.a), w32 (h.b + s.b), w32 (h.c + s.c), w32 (h.d + s.d),
   w32 (h.e + s.e), w32 (h.f + s.f), w32 (h.g + s.g), w32 (h.h + s.h)⟩

/-- Big-endian 8-byte encoding of a length in bits. -/
def be64 (n : Nat) : List Nat :=
  [n / 2 ^ 56 % 256, n / 2 ^ 48 % 256, n / 2 ^ 40 % 256, n / 2 ^ 32 % 256,
   n / 2 ^ 24 % 256, n / 2 ^ 16 % 256, n / 2 ^ 8 % 256, n % 256]

/-- Big-endian 4-byte encoding of a 32-bit word. -/
def be32 (n : Nat) : List Nat :=
  [n / 2 ^ 24 % 256, n / 2 ^ 16 % 256, n / 2 ^ 8 % 256, n % 256]

/-- SHA-256 padding: append `0x80`, zero fill to 56 mod 64, then the
bit length, big-endian. -/
def padMsg (msg : List Nat) : List Nat :=
  let l := msg.length
  let k := (64 - (l + 9) % 64) % 64
  msg ++ 128 :: List.replicate k 0 ++ be64 (8 * l)

/-- Split into 64-byte chunks; the fuel is the list length, so it never
runs out on the padded input. -/
def chunksGo : Nat → List Nat → List (List Nat)
  | 0, _ => []
  | fuel + 1, l =>
    match l with
    | [] => []
    | _ :: _ => l.take 64 :: chunksGo fuel (l.drop 64)

/-- SHA-256 digest of a byte list, as a byte list. -/
def sha256 (msg : List Nat) : List Nat :=
  let padded := padMsg msg
  let final := (chunksGo padded.length padded).foldl compressBlock shaInit
  be32 final.a ++ be32 final.b ++ be32 final.c ++ be32 final.d ++
    be32 final.e ++ be32 final.f ++ be32 final.g ++ be32 final.h

/-- Lowercase hex digit for a nibble. -/
def hexChar (n : Nat) : Char :=
  if n < 10 then Char.ofNat (48 + n) else Char.ofNat (87 + n)

/-- Lowercase hex encoding of a byte list (models the `hex` helper
module in `audit_log.rs`). -/
def hexEncode (bytes : List Nat) : String :=
  String.mk (bytes.flatMap fun b => [hexChar (b / 16), hexChar (b % 16)])

/-- Bytes of a string (UTF-8; all strings in this development are
ASCII, where code points and bytes coincide). -/
def strBytes (s : String) : List Nat := s.toList.map Char.toNat

/-- Lowercase-hex SHA-256 of a string. -/
def sha256hex (s : String) : String := hexEncode (sha256 (strBytes s))

/-- Fixture vector: SHA-256 of `abc`, pinning the implementation to the
standard test vector. -/
theorem sha256_abc_vector :
    sha256hex "abc" =
      "ba7816bf8f01cfea414140de5dae2223b00361a396177a9cb410ff61f20015ad" := by
  decide

/-! ### Audit log

JSON-lines, hash-chained audit log (`audit_log.rs`).  The serialization
mirrors `serde_json::to_string` for `LogEntry`: fixed key order
(`timestamp`, `prev_hash`, `operation`, `context`), externally tagged
snake_case operation variants, and `context` omitted entirely when
unset.  The timestamp is carried as an opaque pre-rendered string, since
`Utc::now()` is an input of the computation, not a function of the log. -/

/-- JSON string escaping as performed by `serde_json`: quote, backslash,
the short control escapes, and `\u00XX` for remaining control bytes. -/
def escChar (c : Char) : String :=
  if c.toNat = 34 then "\\\""
  else if c.toNat = 92 then "\\\\"
  else if c.toNat = 8 then "\\b"
  else if c.toNat = 9 then "\\t"
  else if c.toNat = 10 then "\\n"
  else if c.toNat = 12 then "\\f"
  else if c.toNat = 13 then "\\r"
  else if c.toNat < 32 then
    "\\u00" ++ String.mk [hexChar (c.toNat / 16), hexChar (c.toNat % 16)]
  else String.mk [c]

/-- A JSON string literal with escaping. -/
def jstr (s : String) : String :=
  "\"" ++ String.join (s.toList.map escChar) ++ "\""

/-- The logged operation (`Operation` in `audit_log.rs`); field names and
order match the source, with `from`/`to` renamed to `fromPath`/`toPath`
because `from` is a Lean keyword. -/
inductive Operation where
  | capabilityCreated (root : String) (permissions : String)
  | fileRead (path : String)
  | fileWrite (path : String) (size : Nat)
  | fileDelete (path : String)
  | dirCreate (path : String)
  | dirDelete (path : String)
  | fileMove (fromPath : String) (toPath : String)
  | gitOperation (repo : String) (operation : String)
  | backupMerge (backup_path : String) (repo_path : String) (files_merged : Nat)
  | transactionCommit (id : String)
  | transactionRollback (id : String) (reason : String)
  | custom (kind : String) (details : String)
deriving DecidableEq

/-- Externally tagged snake_case serialization of an operation, exactly
as `#[serde(rename_all = "snake_case")]` produces it. -/
def serializeOperation : Operation → String
  | .capabilityCreated root permissions =>
    "\x7b\"capability_created\":\x7b\"root\":" ++ jstr root ++
      ",\"permissions\":" ++ jstr permissions ++ "\x7d\x7d"
  | .fileRead path =>
    "\x7b\"file_read\":\x7b\"path\":" ++ jstr path ++ "\x7d\x7d"
  | .fileWrite path size =>
    "\x7b\"file_write\":\x7b\"path\":" ++ jstr path ++
      ",\"size\":" ++ toString size ++ "\x7d\x7d"
  | .fileDelete path =>
    "\x7b\"file_delete\":\x7b\"path\":" ++ jstr path ++ "\x7d\x7d"
  | .dirCreate path =>
    "\x7b\"dir_create\":\x7b\"path\":" ++ jstr path ++ "\x7d\x7d"
  | .dirDelete path =>
    "\x7b\"dir_delete\":\x7b\"path\":" ++ jstr path ++ "\x7d\x7d"
  | .fileMove fromPath toPath =>
    "\x7b\"file_move\":\x7b\"from\":" ++ jstr fromPath ++
      ",\"to\":" ++ jstr toPath ++ "\x7d\x7d"
  | .gitOperation repo operation =>
    "\x7b\"git_operation\":\x7b\"repo\":" ++ jstr repo ++
      ",\"operation\":" ++ jstr operation ++ "\x7d\x7d"
  | .backupMerge backup_path repo_path files_merged =>
    "\x7b\"backup_merge\":\x7b\"backup_path\":" ++ jstr backup_path ++
      ",\"repo_path\":" ++ jstr repo_path ++
      ",\"files_merged\":" ++ toString files_merged ++ "\x7d\x7d"
  | .transactionCommit id =>
    "\x7b\"transaction_commit\":\x7b\"id\":" ++ jstr id ++ "\x7d\x7d"
  | .transactionRollback id reason =>
    "\x7b\"transaction_rollback\":\x7b\"id\":" ++ jstr id ++
      ",\"reason\":" ++ jstr reason ++ "\x7d\x7d"
  | .custom kind details =>
    "\x7b\"custom\":\x7b\"kind\":" ++ jstr kind ++
      ",\"details\":" ++ jstr details ++ "\x7d\x7d"

/-- One audit log entry (`LogEntry`). -/
structure LogEntry where
  timestamp : String
  prev_hash : String
  operation : Operation
  context : Option String
deriving DecidableEq

/-- Model of `LogEntry::new`. -/
def LogEntry.new (ts : String) (operation : Operation) (prev_hash : String) :
    LogEntry :=
  ⟨ts, prev_hash, operation, none⟩

/-- The exact JSON line written for and hashed over an entry: keys in
declared order, `context` omitted iff unset, no trailing newline. -/
def serializeEntry (e : LogEntry) : String :=
  "\x7b\"timestamp\":" ++ jstr e.timestamp ++
    ",\"prev_hash\":" ++ jstr e.prev_hash ++
    ",\"operation\":" ++ serializeOperation e.operation ++
    (match e.context with
     | none => ""
     | some c => ",\"context\":" ++ jstr c) ++ "\x7d"

/-- Model of `LogEntry::hash`: lowercase-hex SHA-256 of the entry's JSON
serialization. -/
def LogEntry.hash (e : LogEntry) : String := sha256hex (serializeEntry e)

/-- Errors of the audit log (`IntegrityError`).  The source's
`Serialization(String)` carries a formatted message that embeds the line
index; the model keeps the index.  `Io` is collapsed to a payload-free
constructor. -/
inductive IntegrityError where
  | chainBroken (index : Nat) (expected : String) (actual : String)
  | invalidFormat (index : Nat)
  | emptyLog
  | ioErr
  | serializationErr (index : Nat)
deriving DecidableEq

/-- One physical line of the log file, already classified by
`serde_json::from_str`: whitespace-only, a parsed entry, or a line that
fails to deserialize. -/
inductive Line where
  | blank
  | entry (e : LogEntry)
  | malformed
deriving DecidableEq

/-- The genesis hash: 64 zeros. -/
def GENESIS_HASH : String :=
  "0000000000000000000000000000000000000000000000000000000000000000"

/-- The audit log handle (`AuditLog`): the file contents at line level,
the hash the next entry will cite, and the entry counter. -/
structure AuditLog where
  file : List Line
  last_hash : String
  entry_count : Nat
deriving DecidableEq

/-- Loop of `AuditLog::verify_file`: walk the lines, skipping blank
ones, checking each entry's `prev_hash` against the running expected
hash; the index counts physical lines, the count only entries. -/
def verifyGo : List Line → Nat → String → Nat →
    Except IntegrityError (String × Nat)
  | [], _, expected, count => .ok (expected, count)
  | .blank :: rest, idx, expected, count =>
    verifyGo rest (idx + 1) expected count
  | .malformed :: _, idx, _, _ => .error (.serializationErr idx)
  | .entry e :: rest, idx, expected, count =>
    if e.prev_hash ≠ expected then
      .error (.chainBroken idx expected e.prev_hash)
    else
      verifyGo rest (idx + 1) e.hash (count + 1)

/-- Model of `AuditLog::verify_file`. -/
def AuditLog.verify_file (lines : List Line) :
    Except IntegrityError (String × Nat) :=
  verifyGo lines 0 GENESIS_HASH 0

/-- Model of `AuditLog::verify`: verify the chain, return the count. -/
def AuditLog.verify (lines : List Line) : Except IntegrityError Nat :=
  match AuditLog.verify_file lines with
  | .error e => .error e
  | .ok (_, count) => .ok count

/-- Model of `AuditLog::create_new`. -/
def AuditLog.create_new : AuditLog := ⟨[], GENESIS_HASH, 0⟩

/-- Model of `AuditLog::open_existing`: verify, then adopt the returned
hash and count. -/
def AuditLog.open_existing (lines : List Line) :
    Except IntegrityError AuditLog :=
  match AuditLog.verify_file lines with
  | .error e => .error e
  | .ok (last_hash, count) => .ok ⟨lines, last_hash, count⟩

/-- Model of `AuditLog::new`: the argument is the current file contents,
or `none` when the file does not exist. -/
def AuditLog.new (existing : Option (List Line)) :
    Except IntegrityError AuditLog :=
  match existing with
  | none => .ok AuditLog.create_new
  | some lines => AuditLog.open_existing lines

/-- Model of `AuditLog::read_all`: parse every non-blank line, without
verifying the chain. -/
def AuditLog.read_all (lines : List Line) :
    Except IntegrityError (List LogEntry) :=
  match lines with
  | [] => .ok []
  | .blank :: rest => AuditLog.read_all rest
  | .malformed :: _ => .error (.serializationErr 0)
  | .entry e :: rest =>
    match AuditLog.read_all rest with
    | .error err => .error err
    | .ok es => .ok (e :: es)

/-- Outcome of the write-plus-fsync step of an append; the source can
fail at `writeln!` or at `sync_all`. -/
inductive WriteOutcome where
  | ok
  | writeFail
  | syncFail
deriving DecidableEq

/-- Opaque model of `std::io::Error` as surfaced by a failed append. -/
inductive IoError where
  | writeErr
  | syncErr
deriving DecidableEq

/-- Model of `AuditLog::append_with_context`: build the entry citing
`last_hash`, compute its hash, write the JSON line, fsync, and only then
advance `last_hash` and `entry_count`.  On a write failure nothing
reaches the file model; on a sync failure the line was already written;
in both failure cases the in-memory state does not advance. -/
def AuditLog.append_with_context (log : AuditLog) (operation : Operation)
    (context : Option String) (ts : String) (io : WriteOutcome) :
    Except IoError Unit × AuditLog :=
  let entry : LogEntry :=
    match context with
    | none => LogEntry.new ts operation log.last_hash
    | some c => { LogEntry.new ts operation log.last_hash with context := some c }
  let new_hash := entry.hash
  match io with
  | .writeFail => (.error .writeErr, log)
  | .syncFail => (.error .syncErr, { log with file := log.file ++ [.entry entry] })
  | .ok =>
    (.ok (), ⟨log.file ++ [.entry entry], new_hash, log.entry_count + 1⟩)

/-- One successful append (the common case used by the append-sequence
theorems). -/
def appendOk (log : AuditLog) (x : Operation × Option String × String) :
    AuditLog :=
  (log.append_with_context x.1 x.2.1 x.2.2 .ok).2

/-- A whole sequence of successful appends. -/
def appendAll (log : AuditLog) (xs : List (Operation × Option String × String)) :
    AuditLog :=
  xs.foldl appendOk log

/-- The entries of the file, in order (blank lines skipped). -/
def entriesOf (lines : List Line) : List LogEntry :=
  lines.filterMap fun l =>
    match l with
    | .entry e => some e
    | _ => none

/-- Boolean hash-chain invariant: the first entry cites `h`, and each
entry thereafter cites the hash of its predecessor. -/
def chainOk (h : String) : List LogEntry → Bool
  | [] => true
  | e :: rest => (e.prev_hash == h) && chainOk e.hash rest

/-- The hash cited by the next entry after the given ones. -/
def chainTip (h : String) : List LogEntry → String
  | [] => h
  | e :: rest => chainTip e.hash rest

/-! ### Filesystem transaction

Journaling transaction over the capability (`transaction.rs`).  Every
operation threads the filesystem state explicitly and returns it even on
error, since the source mutates the real filesystem in place. -/

/-- Journal entry (`FsOp`); `from`/`to` are Lean keywords and appear as
`fromPath`/`toPath`. -/
inductive FsOp where
  | created (p : CPath)
  | createdDir (p : CPath)
  | pendingRename (fromPath : CPath) (toPath : CPath)
  | pendingDelete (path : CPath) (backup : CPath)
  | renamed (fromPath : CPath) (toPath : CPath)
deriving DecidableEq

/-- Errors of the transaction layer (`FsError`). -/
inductive FsError where
  | capability (e : CapabilityError)
  | ioErr
  | alreadyCommitted
  | notAFile (p : CPath)
  | notADirectory (p : CPath)
  | alreadyExists (p : CPath)
  | rollbackFailed (op : String) (error : String)
deriving DecidableEq

/-- The transaction handle (`FsTransaction`): the borrowed capability,
the journal, the committed flag, and the unique id used for temp-file
names. -/
structure FsTransaction where
  capability : DirCapability
  journal : List FsOp
  committed : Bool
  id : String
deriving DecidableEq

/-- Model of `FsTransaction::new`. -/
def FsTransaction.mkNew (capability : DirCapability) (id : String) :
    FsTransaction :=
  ⟨capability, [], false, id⟩

/-- Result of one transaction operation: outcome, updated transaction,
updated filesystem. -/
abbrev TxResult := Except FsError Unit × FsTransaction × Fs

/-- Model of `FsTransaction::temp_path`:
`parent(original) / ".{leaf}.{id}.tmp"`. -/
def FsTransaction.temp_path (tx : FsTransaction) (original : CPath) : CPath :=
  let file_name := (original.getLast?).getD "unknown"
  original.dropLast ++ ["." ++ file_name ++ "." ++ tx.id ++ ".tmp"]

/-- Model of `FsTransaction::ensure_not_committed`. -/
def FsTransaction.ensure_not_committed (tx : FsTransaction) :
    Except FsError Unit :=
  if tx.committed then .error .alreadyCommitted else .ok ()

/-- Model of `FsTransaction::write_file`: write the content to a temp
file, fsync, journal the temp creation, atomically rename over the
destination, and swap the journal entry for the destination. -/
def FsTransaction.write_file (tx : FsTransaction) (fs : Fs) (path : RawPath)
    (content : String) : TxResult :=
  match tx.ensure_not_committed with
  | .error e => (.error e, tx, fs)
  | .ok () =>
  match tx.capability.require_write with
  | .error e => (.error (.capability e), tx, fs)
  | .ok () =>
  match tx.capability.resolve_for_creation fs path with
  | .error e => (.error (.capability e), tx, fs)
  | .ok dst =>
    let tmp := tx.temp_path dst
    let fs1 := fsInsert fs tmp (.file content)
    let tx1 := { tx with journal := tx.journal ++ [FsOp.created tmp] }
    let fs2 := renamePath fs1 tmp dst
    let tx2 := { tx1 with journal := tx1.journal.dropLast ++ [FsOp.created dst] }
    (.ok (), tx2, fs2)

/-- Model of `FsTransaction::delete_file`: move the file aside to a
backup temp path and journal a pending delete. -/
def FsTransaction.delete_file (tx : FsTransaction) (fs : Fs) (path : RawPath) :
    TxResult :=
  match tx.ensure_not_committed with
  | .error e => (.error e, tx, fs)
  | .ok () =>
  match tx.capability.require_delete with
  | .error e => (.error (.capability e), tx, fs)
  | .ok () =>
  match tx.capability.resolve fs path with
  | .error e => (.error (.capability e), tx, fs)
  | .ok file =>
    match fs file with
    | some (.file _) =>
      let backup := tx.temp_path file
      let fs1 := renamePath fs file backup
      let tx1 := { tx with journal := tx.journal ++ [FsOp.pendingDelete file backup] }
      (.ok (), tx1, fs1)
    | _ => (.error (.notAFile file), tx, fs)

/-- Model of `FsTransaction::move_file`. -/
def FsTransaction.move_file (tx : FsTransaction) (fs : Fs)
    (src : RawPath) (dstRaw : RawPath) : TxResult :=
  match tx.ensure_not_committed with
  | .error e => (.error e, tx, fs)
  | .ok () =>
  match tx.capability.require_write with
  | .error e => (.error (.capability e), tx, fs)
  | .ok () =>
  match tx.capability.resolve fs src with
  | .error e => (.error (.capability e), tx, fs)
  | .ok srcP =>
  match tx.capability.resolve_for_creation fs dstRaw with
  | .error e => (.error (.capability e), tx, fs)
  | .ok dstP =>
    match fs srcP with
    | some (.file _) =>
      let fs1 := renamePath fs srcP dstP
      let tx1 := { tx with journal := tx.journal ++ [FsOp.renamed srcP dstP] }
      (.ok (), tx1, fs1)
    | _ => (.error (.notAFile srcP), tx, fs)

/-- Model of `FsTransaction::create_dir`. -/
def FsTransaction.create_dir (tx : FsTransaction) (fs : Fs) (path : RawPath) :
    TxResult :=
  match tx.ensure_not_committed with
  | .error e => (.error e, tx, fs)
  | .ok () =>
  match tx.capability.require_write with
  | .error e => (.error (.capability e), tx, fs)
  | .ok () =>
  match tx.capability.resolve_for_creation fs path with
  | .error e => (.error (.capability e), tx, fs)
  | .ok dir =>
    if (fs dir).isSome then (.error (.alreadyExists dir), tx, fs)
    else
      let fs1 := fsInsert fs dir .dir
      let tx1 := { tx with journal := tx.journal ++ [FsOp.createdDir dir] }
      (.ok (), tx1, fs1)

/-- Loop of `FsTransaction::create_dir_all`: walk the components,
creating each one whose resolution fails with `PathNotFound` and
remembering it in a local list; any other error aborts the loop with the
directories created so far on disk but not yet journaled.  The
`fs::create_dir` call itself fails (EEXIST, surfaced as an `io` error
through `?`) when a node — such as a dangling symlink, whose presence
also makes the resolution fail with `PathNotFound` — already occupies
the name. -/
def createDirAllGo (cap : DirCapability) (fs : Fs) (comps : List Comp)
    (current : List Comp) (created : List CPath) :
    Except FsError Unit × Fs × List CPath :=
  match comps with
  | [] => (.ok (), fs, created)
  | c :: rest =>
    let current' := current ++ [c]
    match cap.resolve fs ⟨false, current'⟩ with
    | .ok full =>
      if isDirAt fs full then createDirAllGo cap fs rest current' created
      else (.error (.notADirectory full), fs, created)
    | .error (.pathNotFound _) =>
      match cap.resolve_for_creation fs ⟨false, current'⟩ with
      | .error e => (.error (.capability e), fs, created)
      | .ok p =>
        if (fs p).isSome then (.error .ioErr, fs, created)
        else
          let fs' := fsInsert fs p .dir
          if isDirAt fs' p then
            createDirAllGo cap fs' rest current' (created ++ [p])
          else (.error (.notADirectory p), fs', created ++ [p])
    | .error e => (.error (.capability e), fs, created)

/-- Model of `FsTransaction::create_dir_all`: on success the created
components are journaled, one `CreatedDir` each, after the loop; on
failure the journal is left untouched. -/
def FsTransaction.create_dir_all (tx : FsTransaction) (fs : Fs)
    (path : RawPath) : TxResult :=
  match tx.ensure_not_committed with
  | .error e => (.error e, tx, fs)
  | .ok () =>
  match tx.capability.require_write with
  | .error e => (.error (.capability e), tx, fs)
  | .ok () =>
  match createDirAllGo tx.capability fs path.comps [] [] with
  | (.ok (), fs', created) =>
    (.ok (), { tx with journal := tx.journal ++ created.map FsOp.createdDir }, fs')
  | (.error e, fs', _) => (.error e, tx, fs')

/-- Model of `FsTransaction::commit`: best-effort removal of every
pending-delete backup, then set the committed flag. -/
def FsTransaction.commit (tx : FsTransaction) (fs : Fs) : TxResult :=
  match tx.ensure_not_committed with
  | .error e => (.error e, tx, fs)
  | .ok () =>
    let fs' := tx.journal.foldl
      (fun fsAcc op =>
        match op with
        | .pendingDelete _ backup =>
          if isDirAt fsAcc backup then removeSubtree fsAcc backup
          else removeNode fsAcc backup
        | _ => fsAcc)
      fs
    (.ok (), { tx with committed := true }, fs')

/-- Undo of a single journal entry, as performed by
`FsTransaction::rollback`.  `Created` uses `remove_dir_all` for
directories and `remove_file` otherwise; `CreatedDir` uses
`fs::remove_dir` (in LIFO rollback order the directory is empty again by
the time its entry is processed); the rename-backs are best-effort, a
failed step leaves the filesystem unchanged and processing continues. -/
def rollbackOp (fs : Fs) (op : FsOp) : Fs :=
  match op with
  | .created p => if isDirAt fs p then removeSubtree fs p else removeNode fs p
  | .createdDir p => removeNode fs p
  | .renamed f t => renamePath fs t f
  | .pendingDelete p b => renamePath fs b p
  | .pendingRename f t => renamePath fs t f

/-- Model of `FsTransaction::rollback`: drain the journal tail-first,
undoing each entry. -/
def rollbackFs (journal : List FsOp) (fs : Fs) : Fs :=
  match journal with
  | [] => fs
  | op :: rest => rollbackOp (rollbackFs rest fs) op

/-- Model of `impl Drop for FsTransaction`: roll back unless
committed. -/
def dropTx (tx : FsTransaction) (fs : Fs) : Fs :=
  if tx.committed then fs else rollbackFs tx.journal fs

/-- Abstract description of the transaction operations exercised by the
rollback claim. -/
inductive TxOp where
  | writeF (path : RawPath) (content : String)
  | deleteF (path : RawPath)
deriving DecidableEq

/-- Apply one described operation. -/
def applyTxOp (tx : FsTransaction) (fs : Fs) : TxOp → TxResult
  | .writeF p c => tx.write_file fs p c
  | .deleteF p => tx.delete_file fs p

/-- Apply a sequence of described operations, continuing after errors
(a failed operation does not poison the transaction). -/
def applyTxOps (tx : FsTransaction) (fs : Fs) : List TxOp →
    FsTransaction × Fs
  | [] => (tx, fs)
  | op :: rest =>
    let r := applyTxOp tx fs op
    applyTxOps r.2.1 r.2.2 rest

/-- No node exists at the path or anywhere below it. -/
def subtreeFree (fs : Fs) (p : CPath) : Prop :=
  ∀ q, compPre p q = true → fs q = none

/-- Freshness conditions under which a `write_file` is cleanly
invertible: its destination and temp path do not exist beforehand. -/
def freshForWrite (tx : FsTransaction) (fs : Fs) (p : RawPath) : Prop :=
  ∀ dst, tx.capability.resolve_for_creation fs p = .ok dst →
    subtreeFree fs dst ∧ subtreeFree fs (tx.temp_path dst)

/-- Freshness conditions under which a `delete_file` is cleanly
invertible: the resolved file is not the filesystem root and its backup
path does not exist beforehand. -/
def freshForDelete (tx : FsTransaction) (fs : Fs) (p : RawPath) : Prop :=
  ∀ f, tx.capability.resolve fs p = .ok f →
    f ≠ [] ∧ subtreeFree fs (tx.temp_path f)

/-- The whole sequence satisfies the freshness conditions, each
operation judged against the filesystem state it actually runs on. -/
def wdOk (tx : FsTransaction) (fs : Fs) : List TxOp → Prop
  | [] => True
  | op :: rest =>
    (match op with
     | .writeF p _ => freshForWrite tx fs p
     | .deleteF p => freshForDelete tx fs p) ∧
    wdOk (applyTxOp tx fs op).2.1 (applyTxOp tx fs op).2.2 rest

/-! ### Helper lemmas about component prefixes -/

instance {ε α : Type} [DecidableEq ε] [DecidableEq α] :
    DecidableEq (Except ε α) := fun x y =>
  match x, y with
  | .ok a, .ok b =>
    if h : a = b then isTrue (by simp [h]) else isFalse (by simp [h])
  | .error a, .error b =>
    if h : a = b then isTrue (by simp [h]) else isFalse (by simp [h])
  | .ok _, .error _ => isFalse (by simp)
  | .error _, .ok _ => isFalse (by simp)

/-- Whether a resolution outcome is a `PathTraversal` error. -/
def isTraversalErr : Except CapabilityError CPath → Bool
  | .error (.pathTraversal _ _) => true
  | _ => false

theorem compPre_refl (p : CPath) : compPre p p = true := by
  induction p with
  | nil => rfl
  | cons a as ih => simp [compPre, ih]

theorem compPre_append_right (p r : CPath) : compPre p (p ++ r) = true := by
  induction p with
  | nil => rfl
  | cons a as ih => simp [compPre, ih]

theorem compPre_cancel_left (p xs ys : CPath) :
    compPre (p ++ xs) (p ++ ys) = compPre xs ys := by
  induction p with
  | nil => rfl
  | cons a as ih => simp [compPre, ih]

theorem compPre_decompose {a b : CPath} (h : compPre a b = true) :
    b = a ++ b.drop a.length := by
  induction a generalizing b with
  | nil => simp
  | cons x xs ih =>
    cases b with
    | nil => simp [compPre] at h
    | cons y ys =>
      simp [compPre] at h
      obtain ⟨h1, h2⟩ := h
      simpa [h1] using ih h2

/-- The shared containment fact behind `resolve`: a successful resolution
passed the `starts_with` check. -/
theorem resolve_ok_contained {cap : DirCapability} {fs : Fs} {p : RawPath}
    {q : CPath} (h : cap.resolve fs p = .ok q) : compPre cap.root q = true := by
  simp only [DirCapability.resolve] at h
  split at h
  · exact absurd h (by simp)
  · split at h
    · exact absurd h (by simp)
    · split at h
      · injection h with h'
        subst h'
        assumption
      · exact absurd h (by simp)

/-! ### Concrete environments used by witnesses and counterexamples -/

/-- A small filesystem: root directory `r` with a file `f` and a
subdirectory `d`. -/
def fsA : Fs := fun q =>
  if q = ["r"] then some .dir
  else if q = ["r", "f"] then some (.file "x")
  else if q = ["r", "d"] then some .dir
  else none

/-- Read-write capability rooted at `r`. -/
def capA : DirCapability := ⟨["r"], Permissions.read_write⟩

/-- Filesystem with directories `t` and `t/X`; nothing else exists. -/
def fsB : Fs := fun q =>
  if q = ["t"] then some .dir
  else if q = ["t", "X"] then some .dir
  else none

/-- Full-permission capability rooted at `t/X`. -/
def capB : DirCapability := ⟨["t", "X"], Permissions.full⟩

/-- A relative path `../gone` whose `..` escapes the root of `capB` and
whose target does not exist. -/
def escapeGone : RawPath := ⟨false, [.parentDir, .normal "gone"]⟩

/-- Filesystem with `t/X/inner` a directory, `t/X/outside.txt` a file,
and `t/X/inner/escape` a symlink to the outside file. -/
def fsC : Fs := fun q =>
  if q = ["t"] then some .dir
  else if q = ["t", "X"] then some .dir
  else if q = ["t", "X", "inner"] then some .dir
  else if q = ["t", "X", "outside.txt"] then some (.file "secret")
  else if q = ["t", "X", "inner", "escape"] then
    some (.symlink ⟨true, [.normal "t", .normal "X", .normal "outside.txt"]⟩)
  else none

/-- Read-only capability rooted at the inner directory of `fsC`. -/
def capC : DirCapability := ⟨["t", "X", "inner"], Permissions.read_only⟩

/-! ### Claim C1 -/

/-- Claim C1: for every capability and relative path, a successful
`resolve` returns a path that is absolute and has the capability's root
as a component-wise path prefix. -/
theorem resolve_absolute_and_contained (cap : DirCapability) (fs : Fs)
    (p : RawPath) (q : CPath) (h : cap.resolve fs p = .ok q) :
    pathIsAbsolute (cpathToPath q) = true ∧ compPre cap.root q = true :=
  ⟨rfl, resolve_ok_contained h⟩

/-- Witness for C1 at a concrete resolution inside `fsA`. -/
theorem resolve_absolute_and_contained_witness :
    pathIsAbsolute (cpathToPath ["r", "f"]) = true ∧
      compPre ["r"] ["r", "f"] = true :=
  resolve_absolute_and_contained capA fsA ⟨false, [.normal "f"]⟩ ["r", "f"]
    (by decide)

/-! ### Claim C2 -/

/-- Counterexample for C2: the escaping input `../gone` contains a `..`
that escapes the root of `capB`, yet `resolve` fails with `PathNotFound`
(its canonicalization fails because the escape target does not exist),
not with `PathTraversal` as the claim requires. -/
theorem resolve_escape_not_found :
    capB.resolve fsB escapeGone =
      .error (.pathNotFound
        ⟨true, [.normal "t", .normal "X", .parentDir, .normal "gone"]⟩) ∧
    isTraversalErr (capB.resolve fsB escapeGone) = false := by
  decide

/-- Claim C2 (amended): `resolve` fails with `PathTraversal` on every
absolute input and on every relative input whose canonicalization
succeeds with a result outside the root (which covers `..` escapes to
existing targets and symlinks to existing targets outside the root);
when the canonicalization of the joined path fails — in particular for
`..` escapes or symlinks whose target does not exist — it fails with
`PathNotFound` instead. -/
theorem resolve_traversal_taxonomy :
    (∀ (cap : DirCapability) (fs : Fs) (p : RawPath),
      pathIsAbsolute p = true →
      cap.resolve fs p = .error (.pathTraversal cap.root p)) ∧
    (∀ (cap : DirCapability) (fs : Fs) (p : RawPath) (c : CPath),
      pathIsAbsolute p = false →
      canonicalizePath fs ⟨true, cap.root.map Comp.normal ++ p.comps⟩ = some c →
      compPre cap.root c = false →
      cap.resolve fs p = .error (.pathTraversal cap.root p)) ∧
    (∀ (cap : DirCapability) (fs : Fs) (p : RawPath),
      pathIsAbsolute p = false →
      canonicalizePath fs ⟨true, cap.root.map Comp.normal ++ p.comps⟩ = none →
      cap.resolve fs p =
        .error (.pathNotFound ⟨true, cap.root.map Comp.normal ++ p.comps⟩)) := by
  refine ⟨fun cap fs p habs => ?_, fun cap fs p c habs hc hout => ?_,
    fun cap fs p habs hc => ?_⟩
  · unfold DirCapability.resolve
    simp [habs]
  · unfold DirCapability.resolve
    simp only [habs, Bool.false_eq_true, if_false, hc, hout]
  · unfold DirCapability.resolve
    simp only [habs, Bool.false_eq_true, if_false, hc]

/-- Witness for the amended C2, instantiating all three cases: the
absolute input `/etc`, the symlink `escape` in `fsC` whose target lies
outside the root (caught by the containment check), and the
nonexistent `..` escape of `fsB`. -/
theorem resolve_traversal_taxonomy_witness :
    capB.resolve fsB ⟨true, [.normal "etc"]⟩ =
      .error (.pathTraversal ["t", "X"] ⟨true, [.normal "etc"]⟩) ∧
    capC.resolve fsC ⟨false, [.normal "escape"]⟩ =
      .error (.pathTraversal ["t", "X", "inner"] ⟨false, [.normal "escape"]⟩) ∧
    capB.resolve fsB escapeGone =
      .error (.pathNotFound
        ⟨true, [.normal "t", .normal "X", .parentDir, .normal "gone"]⟩) :=
  ⟨resolve_traversal_taxonomy.1 capB fsB ⟨true, [.normal "etc"]⟩ (by decide),
   resolve_traversal_taxonomy.2.1 capC fsC ⟨false, [.normal "escape"]⟩
     ["t", "X", "outside.txt"] (by decide) (by decide) (by decide),
   resolve_traversal_taxonomy.2.2 capB fsB escapeGone (by decide) (by decide)⟩

/-! ### Claim C8 -/

/-- Claim C8: a successfully derived sub-capability carries exactly the
componentwise meet of the requested and parent permissions (hence at
most the parent's), and its root is contained in the parent's root. -/
theorem subcapability_meet_and_contained (cap : DirCapability) (fs : Fs)
    (subdir : RawPath) (perms : Permissions) (c : DirCapability)
    (h : cap.subcapability fs subdir perms = .ok c) :
    c.permissions = ⟨perms.read && cap.permissions.read,
      perms.write && cap.permissions.write,
      perms.delete && cap.permissions.delete⟩ ∧
    permLe c.permissions cap.permissions = true ∧
    compPre cap.root c.root = true := by
  unfold DirCapability.subcapability at h
  split at h
  next e heq => exact absurd h (by simp)
  next resolved heq =>
    split at h
    · injection h with h'
      subst h'
      refine ⟨rfl, ?_, resolve_ok_contained heq⟩
      obtain ⟨pr, pw, pd⟩ := perms
      obtain ⟨r, p⟩ := cap
      obtain ⟨cr, cw, cd⟩ := p
      cases pr <;> cases pw <;> cases pd <;> cases cr <;> cases cw <;>
        cases cd <;> rfl
    · exact absurd h (by simp)

/-- Witness for C8: inside `fsA`, a `read_write` parent asked for `full`
yields a child rooted at `r/d` with read and write but no delete. -/
theorem subcapability_meet_and_contained_witness :
    DirCapability.permissions ⟨["r", "d"], ⟨true, true, false⟩⟩ =
      ⟨Permissions.full.read && Permissions.read_write.read,
       Permissions.full.write && Permissions.read_write.write,
       Permissions.full.delete && Permissions.read_write.delete⟩ ∧
    permLe (DirCapability.permissions ⟨["r", "d"], ⟨true, true, false⟩⟩)
      Permissions.read_write = true ∧
    compPre ["r"] (DirCapability.root ⟨["r", "d"], ⟨true, true, false⟩⟩) = true :=
  subcapability_meet_and_contained capA fsA ⟨false, [.normal "d"]⟩
    Permissions.full ⟨["r", "d"], ⟨true, true, false⟩⟩ (by decide)

/-! ### Audit log lemmas -/

theorem getLast?_append_single {α : Type} (l : List α) (a : α) :
    (l ++ [a]).getLast? = some a := by
  induction l with
  | nil => rfl
  | cons x xs ih =>
    rw [List.cons_append, List.getLast?_cons, ih]
    cases xs <;> simp

theorem chainTip_append (h : String) (l : List LogEntry) (e : LogEntry) :
    chainTip h (l ++ [e]) = e.hash := by
  induction l generalizing h with
  | nil => rfl
  | cons x xs ih => simpa [chainTip] using ih x.hash

theorem chainOk_append (h : String) (l : List LogEntry) (e : LogEntry) :
    chainOk h (l ++ [e]) = (chainOk h l && (e.prev_hash == chainTip h l)) := by
  induction l generalizing h with
  | nil => simp [chainOk, chainTip]
  | cons x xs ih =>
    simp [chainOk, chainTip, ih, Bool.and_assoc]

theorem entriesOf_append_entry (ls : List Line) (e : LogEntry) :
    entriesOf (ls ++ [.entry e]) = entriesOf ls ++ [e] := by
  simp [entriesOf, List.filterMap_append]

/-- The entry built by an append: it cites the log's current
`last_hash` whatever the optional context is. -/
def mkEntry (log : AuditLog) (x : Operation × Option String × String) :
    LogEntry :=
  ⟨x.2.2, log.last_hash, x.1, x.2.1⟩

theorem appendOk_eq (log : AuditLog) (x : Operation × Option String × String) :
    appendOk log x =
      ⟨log.file ++ [.entry (mkEntry log x)], (mkEntry log x).hash,
        log.entry_count + 1⟩ := by
  obtain ⟨op, ctx, ts⟩ := x
  cases ctx <;> rfl

/-- The chain invariant maintained by appends: the file's entries chain
from genesis and the in-memory `last_hash` is the chain tip. -/
def logInv (log : AuditLog) : Prop :=
  chainOk GENESIS_HASH (entriesOf log.file) = true ∧
  chainTip GENESIS_HASH (entriesOf log.file) = log.last_hash

theorem logInv_appendOk (log : AuditLog)
    (x : Operation × Option String × String) (h : logInv log) :
    logInv (appendOk log x) := by
  obtain ⟨hok, htip⟩ := h
  rw [appendOk_eq]
  constructor
  · simp [entriesOf_append_entry, chainOk_append, hok, htip, mkEntry]
  · simp [entriesOf_append_entry, chainTip_append]

theorem logInv_appendAll (xs : List (Operation × Option String × String))
    (log : AuditLog) (h : logInv log) : logInv (appendAll log xs) := by
  induction xs generalizing log with
  | nil => exact h
  | cons x rest ih => exact ih (appendOk log x) (logInv_appendOk log x h)

/-! ### Claim C5 -/

/-- Claim C5: in a log built by appends, the first entry's `prev_hash`
is the all-zeros genesis string and every later entry's `prev_hash` is
the lowercase-hex SHA-256 of the exact JSON serialization of its
predecessor (`context` omitted iff unset), which is what `chainOk`
checks entry by entry via `LogEntry.hash`. -/
theorem appendAll_chainOk (xs : List (Operation × Option String × String)) :
    chainOk GENESIS_HASH (entriesOf (appendAll AuditLog.create_new xs).file) =
      true :=
  (logInv_appendAll xs AuditLog.create_new ⟨rfl, rfl⟩).1

/-! ### Claim C7 -/

theorem verifyGo_append (ls ls' : List Line) (idx : Nat) (exp : String)
    (cnt : Nat) :
    verifyGo (ls ++ ls') idx exp cnt =
      match verifyGo ls idx exp cnt with
      | .ok (h, c) => verifyGo ls' (idx + ls.length) h c
      | .error e => .error e := by
  induction ls generalizing idx exp cnt with
  | nil => simp [verifyGo]
  | cons l rest ih =>
    have hidx : idx + 1 + rest.length = idx + (rest.length + 1) := by omega
    cases l with
    | blank =>
      simp only [List.cons_append, verifyGo, List.length_cons, List.append_eq]
      rw [ih, hidx]
    | malformed => simp [verifyGo]
    | entry e =>
      simp only [List.cons_append, verifyGo, List.length_cons, List.append_eq]
      split_ifs with hcond
      · rfl
      · rw [ih, hidx]

/-- The verification invariant maintained by appends. -/
def verInv (log : AuditLog) : Prop :=
  AuditLog.verify_file log.file = .ok (log.last_hash, log.entry_count)

theorem verInv_appendOk (log : AuditLog)
    (x : Operation × Option String × String) (h : verInv log) :
    verInv (appendOk log x) := by
  rw [appendOk_eq]
  unfold verInv AuditLog.verify_file at *
  rw [verifyGo_append, h]
  simp [verifyGo, mkEntry]

theorem verInv_appendAll (xs : List (Operation × Option String × String))
    (log : AuditLog) (h : verInv log) : verInv (appendAll log xs) := by
  induction xs generalizing log with
  | nil => exact h
  | cons x rest ih => exact ih (appendOk log x) (verInv_appendOk log x h)

theorem appendAll_count (xs : List (Operation × Option String × String))
    (log : AuditLog) :
    (appendAll log xs).entry_count = log.entry_count + xs.length := by
  induction xs generalizing log with
  | nil => rfl
  | cons x rest ih =>
    rw [show appendAll log (x :: rest) = appendAll (appendOk log x) rest from rfl,
      ih, appendOk_eq]
    simp
    omega

/-- Claim C7: for every sequence of `n` entries written through the
append API into a fresh audit log, `verify_file` on the resulting file
succeeds and returns count `n`. -/
theorem appendAll_verify_count (xs : List (Operation × Option String × String)) :
    AuditLog.verify_file (appendAll AuditLog.create_new xs).file =
      .ok ((appendAll AuditLog.create_new xs).last_hash, xs.length) := by
  have h := verInv_appendAll xs AuditLog.create_new rfl
  unfold verInv at h
  rw [h, appendAll_count]
  simp [AuditLog.create_new]

/-! ### Claim C9 -/

/-- Claim C9: when an append fails at the write or fsync step, the error
is returned, the in-memory `last_hash` and `entry_count` are unchanged,
and a subsequent successful append writes an entry citing the same chain
tip as before the failed attempt. -/
theorem append_failure_preserves_tip (log : AuditLog) (op : Operation)
    (ctx : Option String) (ts : String) (io : WriteOutcome)
    (hio : io ≠ .ok) (op2 : Operation) (ctx2 : Option String) (ts2 : String) :
    (log.append_with_context op ctx ts io).1 ≠ .ok () ∧
    (log.append_with_context op ctx ts io).2.last_hash = log.last_hash ∧
    (log.append_with_context op ctx ts io).2.entry_count = log.entry_count ∧
    ((log.append_with_context op ctx ts io).2.append_with_context
        op2 ctx2 ts2 .ok).2.file.getLast? =
      some (.entry ⟨ts2, log.last_hash, op2, ctx2⟩) := by
  have hmk : ∀ (lg : AuditLog),
      (lg.append_with_context op2 ctx2 ts2 .ok).2.file =
        lg.file ++ [.entry ⟨ts2, lg.last_hash, op2, ctx2⟩] := by
    intro lg
    cases ctx2 <;> rfl
  cases io with
  | ok => exact absurd rfl hio
  | writeFail =>
    refine ⟨by cases ctx <;> simp [AuditLog.append_with_context], ?_, ?_, ?_⟩
    · cases ctx <;> rfl
    · cases ctx <;> rfl
    · rw [hmk]
      have h2 : (log.append_with_context op ctx ts .writeFail).2 = log := by
        cases ctx <;> rfl
      rw [h2, getLast?_append_single]
  | syncFail =>
    refine ⟨by cases ctx <;> simp [AuditLog.append_with_context], ?_, ?_, ?_⟩
    · cases ctx <;> rfl
    · cases ctx <;> rfl
    · rw [hmk]
      have h2 : (log.append_with_context op ctx ts .syncFail).2.last_hash =
          log.last_hash := by
        cases ctx <;> rfl
      rw [h2, getLast?_append_single]

/-- Witness for C9: a write failure on a fresh log leaves the genesis
tip in place and the next successful append cites it. -/
theorem append_failure_preserves_tip_witness :
    (AuditLog.create_new.append_with_context (.fileRead "/a") none "t"
        .writeFail).1 ≠ .ok () ∧
    (AuditLog.create_new.append_with_context (.fileRead "/a") none "t"
        .writeFail).2.last_hash = AuditLog.create_new.last_hash ∧
    (AuditLog.create_new.append_with_context (.fileRead "/a") none "t"
        .writeFail).2.entry_count = AuditLog.create_new.entry_count ∧
    ((AuditLog.create_new.append_with_context (.fileRead "/a") none "t"
        .writeFail).2.append_with_context (.fileRead "/b") none "u"
        .ok).2.file.getLast? =
      some (.entry ⟨"u", AuditLog.create_new.last_hash, .fileRead "/b", none⟩) :=
  append_failure_preserves_tip AuditLog.create_new (.fileRead "/a") none "t"
    .writeFail (by decide) (.fileRead "/b") none "u"

/-! ### Claim C10 -/

theorem verifyGo_all_blank (lines : List Line)
    (h : ∀ l ∈ lines, l = Line.blank) (idx : Nat) (exp : String) (cnt : Nat) :
    verifyGo lines idx exp cnt = .ok (exp, cnt) := by
  induction lines generalizing idx with
  | nil => rfl
  | cons l rest ih =>
    have hl : l = Line.blank := h l (by simp)
    subst hl
    exact ih (fun l hl => h l (by simp [hl])) (idx + 1)

theorem verifyGo_ne_emptyLog (lines : List Line) (idx : Nat) (exp : String)
    (cnt : Nat) : verifyGo lines idx exp cnt ≠ .error .emptyLog := by
  induction lines generalizing idx exp cnt with
  | nil => simp [verifyGo]
  | cons l rest ih =>
    cases l with
    | blank => simpa [verifyGo] using ih (idx + 1) exp cnt
    | malformed => simp [verifyGo]
    | entry e =>
      by_cases he : e.prev_hash = exp
      · simpa [verifyGo, he] using ih (idx + 1) e.hash (cnt + 1)
      · simp [verifyGo, he]

theorem read_all_ne_emptyLog (lines : List Line) :
    AuditLog.read_all lines ≠ .error .emptyLog := by
  induction lines with
  | nil => simp [AuditLog.read_all]
  | cons l rest ih =>
    cases l with
    | blank => simpa [AuditLog.read_all] using ih
    | malformed => simp [AuditLog.read_all]
    | entry e =>
      unfold AuditLog.read_all
      split <;> simp_all

/-- Claim C10: opening an audit log on an existing file that is empty or
all blank lines succeeds with count 0 and the genesis hash, and the
`EmptyLog` variant is never returned by `new`, `verify` or `read_all`. -/
theorem audit_blank_open_and_no_emptyLog :
    (∀ lines : List Line, (∀ l ∈ lines, l = Line.blank) →
      AuditLog.new (some lines) = .ok ⟨lines, GENESIS_HASH, 0⟩) ∧
    (∀ existing : Option (List Line),
      AuditLog.new existing ≠ .error .emptyLog) ∧
    (∀ lines : List Line, AuditLog.verify lines ≠ .error .emptyLog) ∧
    (∀ lines : List Line, AuditLog.read_all lines ≠ .error .emptyLog) := by
  have hopen : ∀ lines : List Line,
      AuditLog.open_existing lines ≠ .error .emptyLog := by
    intro lines
    unfold AuditLog.open_existing AuditLog.verify_file
    split
    next e heq =>
      intro hc
      injection hc with hc'
      subst hc'
      exact verifyGo_ne_emptyLog lines 0 GENESIS_HASH 0 heq
    next => simp
  refine ⟨?_, ?_, ?_, read_all_ne_emptyLog⟩
  · intro lines hbl
    simp only [AuditLog.new, AuditLog.open_existing, AuditLog.verify_file]
    rw [verifyGo_all_blank lines hbl]
  · intro existing
    cases existing with
    | none => simp [AuditLog.new, AuditLog.create_new]
    | some lines => exact hopen lines
  · intro lines
    unfold AuditLog.verify AuditLog.verify_file
    split
    next e heq =>
      intro hc
      injection hc with hc'
      subst hc'
      exact verifyGo_ne_emptyLog lines 0 GENESIS_HASH 0 heq
    next => simp

/-- Witness for C10 on a concrete two-blank-line file. -/
theorem audit_blank_open_witness :
    AuditLog.new (some [Line.blank, Line.blank]) =
      .ok ⟨[Line.blank, Line.blank], GENESIS_HASH, 0⟩ :=
  audit_blank_open_and_no_emptyLog.1 [Line.blank, Line.blank] (by simp)

/-! ### Claim C4 -/

/-- Replacement loop of `str::replace`: replace every non-overlapping
occurrence of the pattern left to right.  The fuel is the input length,
which bounds the recursion. -/
def strReplaceGo (pat rep : List Char) : Nat → List Char → List Char
  | 0, l => l
  | _ + 1, [] => []
  | fuel + 1, c :: rest =>
    if pat.isPrefixOf (c :: rest) then
      rep ++ strReplaceGo pat rep fuel ((c :: rest).drop pat.length)
    else c :: strReplaceGo pat rep fuel rest

/-- Model of Rust `str::replace`. -/
def strReplace (s pat rep : String) : String :=
  String.mk (strReplaceGo pat.toList rep.toList s.toList.length s.toList)

/-- The file contents produced by appends: one serialized entry per
line, each newline-terminated. -/
def renderLines (entries : List LogEntry) : String :=
  String.join (entries.map fun e => serializeEntry e ++ "\n")

/-- First appended entry of the tamper scenario (`file_read /first`). -/
def tamperE0 (ts0 : String) : LogEntry :=
  ⟨ts0, GENESIS_HASH, .fileRead "/first", none⟩

/-- Second appended entry (`file_read /second`). -/
def tamperE1 (ts0 ts1 : String) : LogEntry :=
  ⟨ts1, (tamperE0 ts0).hash, .fileRead "/second", none⟩

/-- Third appended entry (`file_read /third`). -/
def tamperE2 (ts0 ts1 ts2 : String) : LogEntry :=
  ⟨ts2, (tamperE1 ts0 ts1).hash, .fileRead "/third", none⟩

/-- The second entry after the byte-level tamper replaced `/second` with
`/hacked`; its `prev_hash` is untouched. -/
def tamperE1x (ts0 ts1 : String) : LogEntry :=
  ⟨ts1, (tamperE0 ts0).hash, .fileRead "/hacked", none⟩

/-- The third entry with its payload tampered the same way. -/
def tamperE2x (ts0 ts1 ts2 : String) : LogEntry :=
  ⟨ts2, (tamperE1 ts0 ts1).hash, .fileRead "/hacked", none⟩

theorem verifyGo_cons_entry_eq (e : LogEntry) (rest : List Line) (idx : Nat)
    (exp : String) (cnt : Nat) (h : e.prev_hash = exp) :
    verifyGo (.entry e :: rest) idx exp cnt =
      verifyGo rest (idx + 1) e.hash (cnt + 1) := by
  simp [verifyGo, h]

theorem verifyGo_cons_entry_ne (e : LogEntry) (rest : List Line) (idx : Nat)
    (exp : String) (cnt : Nat) (h : e.prev_hash ≠ exp) :
    verifyGo (.entry e :: rest) idx exp cnt =
      .error (.chainBroken idx exp e.prev_hash) := by
  simp [verifyGo, h]

/-- Counterexample for C4: for the concrete three-append log, replacing
the substring `/second` by `/hacked` in the rendered file is exactly the
entry-level tamper of entry 1, and `verify_file` then reports
`ChainBroken` at index 2 — the entry after the altered one — not at
index 1 as the claim states. -/
theorem tamper_chainBroken_index_two :
    strReplace
        (renderLines [tamperE0 "t0", tamperE1 "t0" "t1", tamperE2 "t0" "t1" "t2"])
        "/second" "/hacked" =
      renderLines [tamperE0 "t0", tamperE1x "t0" "t1", tamperE2 "t0" "t1" "t2"] ∧
    AuditLog.verify_file
        [.entry (tamperE0 "t0"), .entry (tamperE1x "t0" "t1"),
         .entry (tamperE2 "t0" "t1" "t2")] =
      .error (.chainBroken 2 (tamperE1x "t0" "t1").hash
        (tamperE1 "t0" "t1").hash) ∧
    (2 : Nat) ≠ 1 := by
  decide

/-- Claim C4 (amended): altering a non-`prev_hash` byte of a non-final
entry is detected one entry late: for the three-append log with entry 1's
payload tampered, `verify_file` returns `ChainBroken` at index 2
(provided the tampered entry hashes differently, as it concretely does),
not at an index at most 1; and the same tamper applied to the final
entry's payload is not detected at all. -/
theorem tamper_detected_after (ts0 ts1 ts2 : String)
    (hne : (tamperE1x ts0 ts1).hash ≠ (tamperE1 ts0 ts1).hash) :
    (appendAll AuditLog.create_new
        [(.fileRead "/first", none, ts0), (.fileRead "/second", none, ts1),
         (.fileRead "/third", none, ts2)]).file =
      [.entry (tamperE0 ts0), .entry (tamperE1 ts0 ts1),
       .entry (tamperE2 ts0 ts1 ts2)] ∧
    AuditLog.verify_file
        [.entry (tamperE0 ts0), .entry (tamperE1x ts0 ts1),
         .entry (tamperE2 ts0 ts1 ts2)] =
      .error (.chainBroken 2 (tamperE1x ts0 ts1).hash
        (tamperE1 ts0 ts1).hash) ∧
    AuditLog.verify_file
        [.entry (tamperE0 ts0), .entry (tamperE1 ts0 ts1),
         .entry (tamperE2x ts0 ts1 ts2)] =
      .ok ((tamperE2x ts0 ts1 ts2).hash, 3) := by
  refine ⟨rfl, ?_, ?_⟩
  · unfold AuditLog.verify_file
    rw [verifyGo_cons_entry_eq (tamperE0 ts0) _ 0 GENESIS_HASH 0 rfl,
      verifyGo_cons_entry_eq (tamperE1x ts0 ts1) _ 1 (tamperE0 ts0).hash 1 rfl,
      verifyGo_cons_entry_ne (tamperE2 ts0 ts1 ts2) _ 2
        (tamperE1x ts0 ts1).hash 2
        (show (tamperE2 ts0 ts1 ts2).prev_hash ≠ (tamperE1x ts0 ts1).hash from
          Ne.symm hne)]
    rfl
  · unfold AuditLog.verify_file
    rw [verifyGo_cons_entry_eq (tamperE0 ts0) _ 0 GENESIS_HASH 0 rfl,
      verifyGo_cons_entry_eq (tamperE1 ts0 ts1) _ 1 (tamperE0 ts0).hash 1 rfl,
      verifyGo_cons_entry_eq (tamperE2x ts0 ts1 ts2) _ 2
        (tamperE1 ts0 ts1).hash 2 rfl]
    rfl

/-- Witness for the amended C4, at the concrete timestamps of the
counterexample; the hash inequality is discharged by computation. -/
theorem tamper_detected_after_witness :
    (appendAll AuditLog.create_new
        [(.fileRead "/first", none, "t0"), (.fileRead "/second", none, "t1"),
         (.fileRead "/third", none, "t2")]).file =
      [.entry (tamperE0 "t0"), .entry (tamperE1 "t0" "t1"),
       .entry (tamperE2 "t0" "t1" "t2")] ∧
    AuditLog.verify_file
        [.entry (tamperE0 "t0"), .entry (tamperE1x "t0" "t1"),
         .entry (tamperE2 "t0" "t1" "t2")] =
      .error (.chainBroken 2 (tamperE1x "t0" "t1").hash
        (tamperE1 "t0" "t1").hash) ∧
    AuditLog.verify_file
        [.entry (tamperE0 "t0"), .entry (tamperE1 "t0" "t1"),
         .entry (tamperE2x "t0" "t1" "t2")] =
      .ok ((tamperE2x "t0" "t1" "t2").hash, 3) :=
  tamper_detected_after "t0" "t1" "t2" (by decide)

/-! ### Transaction helper lemmas -/

/-- Pointwise equality of filesystems (the sets of files and
directories, with contents, coincide). -/
def fsEq (a b : Fs) : Prop := ∀ q, a q = b q

theorem dropLast_append_single {α : Type} (l : List α) (a : α) :
    (l ++ [a]).dropLast = l := by
  induction l with
  | nil => rfl
  | cons x xs ih =>
    rw [List.cons_append, List.dropLast_cons_of_ne_nil (by simp), ih]

theorem compPre_append_ne_last (cp : CPath) (x y : String) (rest : CPath)
    (hxy : x ≠ y) : compPre (cp ++ [x]) (cp ++ y :: rest) = false := by
  rw [show cp ++ y :: rest = cp ++ ([y] ++ rest) from by simp,
    compPre_cancel_left]
  simp [compPre, hxy]

theorem compPre_comparable {a b q : CPath} (ha : compPre a q = true)
    (hb : compPre b q = true) :
    compPre a b = true ∨ compPre b a = true := by
  induction a generalizing b q with
  | nil => left; rfl
  | cons x xs ih =>
    cases b with
    | nil => right; rfl
    | cons y ys =>
      cases q with
      | nil => simp [compPre] at ha
      | cons z zs =>
        simp only [compPre, Bool.and_eq_true, beq_iff_eq] at ha hb
        obtain ⟨hxz, ha'⟩ := ha
        obtain ⟨hyz, hb'⟩ := hb
        subst hxz
        subst hyz
        rcases ih ha' hb' with h | h
        · left; simp [compPre, h]
        · right; simp [compPre, h]

theorem fsInsert_self (fs : Fs) (p : CPath) (n : Node) :
    fsInsert fs p n p = some n := by
  simp [fsInsert]

theorem fsInsert_other (fs : Fs) (p q : CPath) (n : Node) (h : q ≠ p) :
    fsInsert fs p n q = fs q := by
  simp [fsInsert, h]

theorem subtreeFree_insert {fs : Fs} {p k : CPath} (h : subtreeFree fs p)
    (hk : compPre p k = false) (n : Node) :
    subtreeFree (fsInsert fs k n) p := by
  intro q hq
  have hqk : q ≠ k := by
    intro hcon
    rw [hcon] at hq
    rw [hq] at hk
    exact Bool.noConfusion hk
  rw [fsInsert_other fs k q n hqk]
  exact h q hq

theorem subtreeFree_rename {fs : Fs} {p src dst : CPath}
    (h : subtreeFree fs p) (h1 : compPre p dst = false)
    (h2 : compPre dst p = false) :
    subtreeFree (renamePath fs src dst) p := by
  intro q hq
  unfold renamePath
  by_cases hg : (fs src).isNone
  · simp only [hg, if_true]
    exact h q hq
  · simp only [hg, Bool.false_eq_true, if_false]
    by_cases hs : compPre src q = true
    · simp [hs]
    · simp only [hs, Bool.false_eq_true, if_false]
      by_cases hd : compPre dst q = true
      · exfalso
        rcases compPre_comparable hd hq with hc | hc
        · rw [hc] at h2; exact absurd h2 (by simp)
        · rw [hc] at h1; exact absurd h1 (by simp)
      · simp only [hd, Bool.false_eq_true, if_false]
        exact h q hq

/-- A filesystem given by a finite list of path-node pairs. -/
def fsOfPairs (l : List (CPath × Node)) : Fs := fun q =>
  match l.find? fun e => e.1 == q with
  | some e => some e.2
  | none => none

theorem fsOfPairs_subtreeFree (l : List (CPath × Node)) (p : CPath)
    (h : ∀ e ∈ l, compPre p e.1 = false) : subtreeFree (fsOfPairs l) p := by
  intro q hq
  induction l with
  | nil => rfl
  | cons e rest ih =>
    show (match (e :: rest).find? (fun e => e.1 == q) with
      | some e => some e.2
      | none => none) = none
    rw [List.find?_cons]
    have hne : (e.1 == q) = false := by
      apply beq_eq_false_iff_ne.mpr
      intro hcon
      have := h e (by simp)
      rw [hcon, hq] at this
      simp at this
    rw [hne]
    exact ih fun e' he' => h e' (by simp [he'])

/-! ### Congruence of rollback under pointwise filesystem equality -/

theorem removeNode_congr {a b : Fs} (h : fsEq a b) (p : CPath) :
    fsEq (removeNode a p) (removeNode b p) := by
  intro q
  unfold removeNode
  by_cases hq : q = p <;> simp [hq, h q]

theorem removeSubtree_congr {a b : Fs} (h : fsEq a b) (p : CPath) :
    fsEq (removeSubtree a p) (removeSubtree b p) := by
  intro q
  unfold removeSubtree
  by_cases hq : compPre p q = true <;> simp [hq, h q]

theorem renamePath_congr {a b : Fs} (h : fsEq a b) (src dst : CPath) :
    fsEq (renamePath a src dst) (renamePath b src dst) := by
  intro q
  unfold renamePath
  rw [h src]
  by_cases hg : (b src).isNone
  · simp only [hg, if_true]
    exact h q
  · simp only [hg, Bool.false_eq_true, if_false]
    by_cases h1 : compPre src q = true
    · simp [h1]
    · simp only [h1, Bool.false_eq_true, if_false]
      by_cases h2 : compPre dst q = true
      · simp only [h2, if_true]
        exact h _
      · simp only [h2, Bool.false_eq_true, if_false]
        exact h q

theorem isDirAt_congr {a b : Fs} (h : fsEq a b) (p : CPath) :
    isDirAt a p = isDirAt b p := by
  unfold isDirAt
  rw [h p]

theorem rollbackOp_congr {a b : Fs} (h : fsEq a b) (op : FsOp) :
    fsEq (rollbackOp a op) (rollbackOp b op) := by
  cases op with
  | created p =>
    intro q
    show (if isDirAt a p = true then removeSubtree a p else removeNode a p) q =
      (if isDirAt b p = true then removeSubtree b p else removeNode b p) q
    rw [isDirAt_congr h]
    by_cases hd : isDirAt b p = true
    · simp only [hd, if_true]
      exact removeSubtree_congr h p q
    · simp only [hd, Bool.false_eq_true, if_false]
      exact removeNode_congr h p q
  | createdDir p => exact removeNode_congr h p
  | renamed f t => exact renamePath_congr h t f
  | pendingDelete p bk => exact renamePath_congr h bk p
  | pendingRename f t => exact renamePath_congr h t f

theorem rollbackFs_congr {a b : Fs} (h : fsEq a b) (journal : List FsOp) :
    fsEq (rollbackFs journal a) (rollbackFs journal b) := by
  induction journal with
  | nil => exact h
  | cons op rest ih => exact rollbackOp_congr ih op

theorem rollbackFs_append (journal : List FsOp) (j : FsOp) (fs : Fs) :
    rollbackFs (journal ++ [j]) fs = rollbackFs journal (rollbackOp fs j) := by
  induction journal with
  | nil => rfl
  | cons op rest ih => simp only [List.cons_append, List.append_eq, rollbackFs, ih]

/-! ### Shapes of the transaction operations -/

theorem write_file_error {tx : FsTransaction} {fs : Fs} {p : RawPath}
    {c : String} {e : FsError} {tx' : FsTransaction} {fs' : Fs}
    (h : tx.write_file fs p c = (.error e, tx', fs')) :
    tx' = tx ∧ fs' = fs := by
  simp only [FsTransaction.write_file] at h
  split at h
  · injection h with h1 h2
    injection h2 with h3 h4
    exact ⟨h3.symm, h4.symm⟩
  · split at h
    · injection h with h1 h2
      injection h2 with h3 h4
      exact ⟨h3.symm, h4.symm⟩
    · split at h
      · injection h with h1 h2
        injection h2 with h3 h4
        exact ⟨h3.symm, h4.symm⟩
      · injection h with h1 h2
        exact Except.noConfusion h1

theorem write_file_ok {tx : FsTransaction} {fs : Fs} {p : RawPath}
    {c : String} {tx' : FsTransaction} {fs' : Fs}
    (h : tx.write_file fs p c = (.ok (), tx', fs')) :
    ∃ dst, tx.capability.resolve_for_creation fs p = .ok dst ∧
      tx' = { tx with journal := tx.journal ++ [FsOp.created dst] } ∧
      fs' = renamePath (fsInsert fs (tx.temp_path dst) (.file c))
        (tx.temp_path dst) dst := by
  simp only [FsTransaction.write_file] at h
  split at h
  · injection h with h1 _
    exact Except.noConfusion h1
  · split at h
    · injection h with h1 _
      exact Except.noConfusion h1
    · split at h
      · injection h with h1 _
        exact Except.noConfusion h1
      next dst heq =>
        injection h with h1 h2
        injection h2 with h3 h4
        refine ⟨dst, heq, ?_, h4.symm⟩
        rw [← h3, dropLast_append_single]

theorem delete_file_error {tx : FsTransaction} {fs : Fs} {p : RawPath}
    {e : FsError} {tx' : FsTransaction} {fs' : Fs}
    (h : tx.delete_file fs p = (.error e, tx', fs')) :
    tx' = tx ∧ fs' = fs := by
  simp only [FsTransaction.delete_file] at h
  split at h
  · injection h with h1 h2
    injection h2 with h3 h4
    exact ⟨h3.symm, h4.symm⟩
  · split at h
    · injection h with h1 h2
      injection h2 with h3 h4
      exact ⟨h3.symm, h4.symm⟩
    · split at h
      · injection h with h1 h2
        injection h2 with h3 h4
        exact ⟨h3.symm, h4.symm⟩
      · split at h
        · injection h with h1 _
          exact Except.noConfusion h1
        · injection h with h1 h2
          injection h2 with h3 h4
          exact ⟨h3.symm, h4.symm⟩

theorem delete_file_ok {tx : FsTransaction} {fs : Fs} {p : RawPath}
    {tx' : FsTransaction} {fs' : Fs}
    (h : tx.delete_file fs p = (.ok (), tx', fs')) :
    ∃ f ct, tx.capability.resolve fs p = .ok f ∧
      fs f = some (.file ct) ∧
      tx' = { tx with journal :=
        tx.journal ++ [FsOp.pendingDelete f (tx.temp_path f)] } ∧
      fs' = renamePath fs f (tx.temp_path f) := by
  simp only [FsTransaction.delete_file] at h
  split at h
  · injection h with h1 _
    exact Except.noConfusion h1
  · split at h
    · injection h with h1 _
      exact Except.noConfusion h1
    · split at h
      · injection h with h1 _
        exact Except.noConfusion h1
      next f heq =>
        split at h
        next ct hnode =>
          injection h with h1 h2
          injection h2 with h3 h4
          exact ⟨f, ct, heq, hnode, h3.symm, h4.symm⟩
        next hnode =>
          injection h with h1 _
          exact Except.noConfusion h1

theorem rfc_ok_shape {cap : DirCapability} {fs : Fs} {rel : RawPath}
    {dst : CPath} (h : cap.resolve_for_creation fs rel = .ok dst) :
    ∃ cp name, dst = cp ++ [name] := by
  simp only [DirCapability.resolve_for_creation] at h
  split at h
  · exact absurd h (by simp)
  · split at h
    · exact absurd h (by simp)
    · exact absurd h (by simp)
    · exact absurd h (by simp)
    · split at h
      · exact absurd h (by simp)
      · split at h
        · injection h with h1
          exact ⟨_, _, h1.symm⟩
        · exact absurd h (by simp)

/-! ### Temp-path facts -/

theorem temp_path_append (tx : FsTransaction) (cp : CPath) (name : String) :
    tx.temp_path (cp ++ [name]) =
      cp ++ ["." ++ name ++ "." ++ tx.id ++ ".tmp"] := by
  unfold FsTransaction.temp_path
  rw [getLast?_append_single, dropLast_append_single]
  rfl

theorem temp_leaf_ne (tx : FsTransaction) (name : String) :
    ("." ++ name ++ "." ++ tx.id ++ ".tmp") ≠ name := by
  intro hcon
  have hlen := congrArg String.length hcon
  simp only [String.length_append] at hlen
  have l1 : (".").length = 1 := rfl
  have l2 : (".tmp").length = 4 := rfl
  rw [l1, l2] at hlen
  omega

theorem compPre_temp_self (tx : FsTransaction) (cp : CPath) (name : String) :
    compPre (tx.temp_path (cp ++ [name])) (cp ++ [name]) = false := by
  rw [temp_path_append]
  exact compPre_append_ne_last cp _ name [] (temp_leaf_ne tx name)

theorem compPre_self_temp (tx : FsTransaction) (cp : CPath) (name : String) :
    compPre (cp ++ [name]) (tx.temp_path (cp ++ [name])) = false := by
  rw [temp_path_append]
  exact compPre_append_ne_last cp name _ [] (Ne.symm (temp_leaf_ne tx name))

theorem renamePath_apply_of_src_exists {fs : Fs} {src : CPath}
    (h : (fs src).isNone = false) (dst q : CPath) :
    renamePath fs src dst q =
      if compPre src q = true then none
      else if compPre dst q = true then fs (src ++ q.drop dst.length)
      else fs q := by
  unfold renamePath
  rw [h]
  simp

/-! ### Inversion of a single journaled operation -/

theorem write_inversion (tx : FsTransaction) (fs : Fs) (cp : CPath)
    (name : String) (c : String)
    (hd : subtreeFree fs (cp ++ [name]))
    (ht : subtreeFree fs (tx.temp_path (cp ++ [name]))) :
    fsEq (rollbackOp
        (renamePath (fsInsert fs (tx.temp_path (cp ++ [name])) (.file c))
          (tx.temp_path (cp ++ [name])) (cp ++ [name]))
        (.created (cp ++ [name]))) fs := by
  set dst := cp ++ [name] with hdstdef
  set tpath := tx.temp_path dst with htpathdef
  set ins : Fs := fsInsert fs tpath (.file c) with hinsdef
  have hguard : (ins tpath).isNone = false := by
    rw [hinsdef, fsInsert_self]
    rfl
  have hpt : compPre tpath dst = false := compPre_temp_self tx cp name
  have hfs2dst : renamePath ins tpath dst dst = some (.file c) := by
    rw [renamePath_apply_of_src_exists hguard dst dst,
      if_neg (by rw [hpt]; simp), if_pos (compPre_refl dst),
      List.drop_length, List.append_nil, hinsdef, fsInsert_self]
  have hdir : isDirAt (renamePath ins tpath dst) dst = false := by
    unfold isDirAt
    rw [hfs2dst]
  intro q
  show (if isDirAt (renamePath ins tpath dst) dst = true
      then removeSubtree (renamePath ins tpath dst) dst
      else removeNode (renamePath ins tpath dst) dst) q = fs q
  rw [hdir]
  simp only [Bool.false_eq_true, if_false]
  unfold removeNode
  by_cases hq : q = dst
  · rw [if_pos hq, hq]
    exact (hd dst (compPre_refl dst)).symm
  · rw [if_neg hq, renamePath_apply_of_src_exists hguard dst q]
    by_cases h1 : compPre tpath q = true
    · rw [if_pos h1]
      exact (ht q h1).symm
    · rw [if_neg h1]
      by_cases h2 : compPre dst q = true
      · rw [if_pos h2]
        have hq2 := compPre_decompose h2
        have hrest : q.drop dst.length ≠ [] := by
          intro hcon
          rw [hcon, List.append_nil] at hq2
          exact hq hq2
        have hne2 : tpath ++ q.drop dst.length ≠ tpath := by
          intro hcon
          have hlen := congrArg List.length hcon
          rw [List.length_append] at hlen
          exact hrest (List.eq_nil_of_length_eq_zero (by omega))
        rw [hinsdef, fsInsert_other _ _ _ _ hne2,
          ht _ (compPre_append_right tpath _), hd q h2]
      · rw [if_neg h2]
        have hqt : q ≠ tpath := by
          intro hcon
          rw [hcon] at h1
          exact h1 (compPre_refl tpath)
        rw [hinsdef, fsInsert_other _ _ _ _ hqt]

theorem delete_inversion (tx : FsTransaction) (fs : Fs) (cp : CPath)
    (name : String) (ct : String)
    (hfile : fs (cp ++ [name]) = some (.file ct))
    (hb : subtreeFree fs (tx.temp_path (cp ++ [name]))) :
    fsEq (rollbackOp (renamePath fs (cp ++ [name])
        (tx.temp_path (cp ++ [name])))
      (.pendingDelete (cp ++ [name]) (tx.temp_path (cp ++ [name])))) fs := by
  set f := cp ++ [name] with hfdef
  set bk := tx.temp_path f with hbkdef
  have hguard : (fs f).isNone = false := by
    rw [hfile]
    rfl
  have hfb : compPre f bk = false := compPre_self_temp tx cp name
  have hbf : compPre bk f = false := compPre_temp_self tx cp name
  have hfs'b : renamePath fs f bk bk = some (.file ct) := by
    rw [renamePath_apply_of_src_exists hguard bk bk,
      if_neg (by rw [hfb]; simp), if_pos (compPre_refl bk),
      List.drop_length, List.append_nil, hfile]
  have hguard2 : ((renamePath fs f bk) bk).isNone = false := by
    rw [hfs'b]
    rfl
  intro q
  show renamePath (renamePath fs f bk) bk f q = fs q
  rw [renamePath_apply_of_src_exists hguard2 f q]
  by_cases h1 : compPre bk q = true
  · rw [if_pos h1]
    exact (hb q h1).symm
  · rw [if_neg h1]
    by_cases h2 : compPre f q = true
    · rw [if_pos h2]
      rw [renamePath_apply_of_src_exists hguard bk (bk ++ q.drop f.length)]
      have hc1 : compPre f (bk ++ q.drop f.length) = false := by
        rw [hbkdef, hfdef, temp_path_append, List.append_assoc,
          List.singleton_append]
        exact compPre_append_ne_last cp name _ _
          (Ne.symm (temp_leaf_ne tx name))
      rw [if_neg (by rw [hc1]; simp),
        if_pos (compPre_append_right bk _), List.drop_left, ← compPre_decompose h2]
    · rw [if_neg h2]
      rw [renamePath_apply_of_src_exists hguard bk q, if_neg h2, if_neg h1]

/-! ### Main rollback theorem -/

theorem write_file_committed (tx : FsTransaction) (fs : Fs) (p : RawPath)
    (c : String) : (tx.write_file fs p c).2.1.committed = tx.committed := by
  rcases hr : tx.write_file fs p c with ⟨r1, tx', fs'⟩
  cases r1 with
  | error e =>
    obtain ⟨h1, _⟩ := write_file_error hr
    rw [h1]
  | ok u =>
    cases u
    obtain ⟨dst, _, h1, _⟩ := write_file_ok hr
    rw [h1]

theorem delete_file_committed (tx : FsTransaction) (fs : Fs) (p : RawPath) :
    (tx.delete_file fs p).2.1.committed = tx.committed := by
  rcases hr : tx.delete_file fs p with ⟨r1, tx', fs'⟩
  cases r1 with
  | error e =>
    obtain ⟨h1, _⟩ := delete_file_error hr
    rw [h1]
  | ok u =>
    cases u
    obtain ⟨f, ct, _, _, h1, _⟩ := delete_file_ok hr
    rw [h1]

theorem applyTxOp_committed (tx : FsTransaction) (fs : Fs) (op : TxOp) :
    (applyTxOp tx fs op).2.1.committed = tx.committed := by
  cases op with
  | writeF p c => exact write_file_committed tx fs p c
  | deleteF p => exact delete_file_committed tx fs p

theorem applyTxOps_committed (ops : List TxOp) : ∀ (tx : FsTransaction)
    (fs : Fs), (applyTxOps tx fs ops).1.committed = tx.committed := by
  induction ops with
  | nil => intro tx fs; rfl
  | cons op rest ih =>
    intro tx fs
    show (applyTxOps (applyTxOp tx fs op).2.1
      (applyTxOp tx fs op).2.2 rest).1.committed = tx.committed
    rw [ih]
    exact applyTxOp_committed tx fs op

theorem applyTxOps_rollback (ops : List TxOp) : ∀ (tx : FsTransaction)
    (fs : Fs), wdOk tx fs ops →
    fsEq (rollbackFs (applyTxOps tx fs ops).1.journal (applyTxOps tx fs ops).2)
      (rollbackFs tx.journal fs) := by
  induction ops with
  | nil => intro tx fs _ q; rfl
  | cons op rest ih =>
    intro tx fs h
    obtain ⟨hop, hrest⟩ := h
    have hstep : fsEq
        (rollbackFs (applyTxOp tx fs op).2.1.journal (applyTxOp tx fs op).2.2)
        (rollbackFs tx.journal fs) := by
      cases op with
      | writeF p c =>
        rcases hr : tx.write_file fs p c with ⟨r1, tx', fs'⟩
        have happ : applyTxOp tx fs (.writeF p c) = (r1, tx', fs') := hr
        rw [happ]
        cases r1 with
        | error e =>
          obtain ⟨h1, h2⟩ := write_file_error hr
          rw [h1, h2]
          exact fun q => rfl
        | ok u =>
          cases u
          obtain ⟨dst, hdst, h1, h2⟩ := write_file_ok hr
          obtain ⟨hfd, hft⟩ := hop dst hdst
          obtain ⟨cp, nm, hshape⟩ := rfc_ok_shape hdst
          subst hshape
          rw [h1, h2]
          show fsEq (rollbackFs (tx.journal ++ [FsOp.created (cp ++ [nm])])
            (renamePath (fsInsert fs (tx.temp_path (cp ++ [nm])) (.file c))
              (tx.temp_path (cp ++ [nm])) (cp ++ [nm])))
            (rollbackFs tx.journal fs)
          rw [rollbackFs_append]
          exact rollbackFs_congr (write_inversion tx fs cp nm c hfd hft)
            tx.journal
      | deleteF p =>
        rcases hr : tx.delete_file fs p with ⟨r1, tx', fs'⟩
        have happ : applyTxOp tx fs (.deleteF p) = (r1, tx', fs') := hr
        rw [happ]
        cases r1 with
        | error e =>
          obtain ⟨h1, h2⟩ := delete_file_error hr
          rw [h1, h2]
          exact fun q => rfl
        | ok u =>
          cases u
          obtain ⟨f, ct, hres, hfile, h1, h2⟩ := delete_file_ok hr
          obtain ⟨hfne, hsb⟩ := hop f hres
          obtain ⟨cp, nm, hshape⟩ : ∃ cp nm, f = cp ++ [nm] :=
            ⟨f.dropLast, f.getLast hfne,
              (List.dropLast_append_getLast hfne).symm⟩
          subst hshape
          rw [h1, h2]
          show fsEq (rollbackFs
            (tx.journal ++ [FsOp.pendingDelete (cp ++ [nm])
              (tx.temp_path (cp ++ [nm]))])
            (renamePath fs (cp ++ [nm]) (tx.temp_path (cp ++ [nm]))))
            (rollbackFs tx.journal fs)
          rw [rollbackFs_append]
          exact rollbackFs_congr (delete_inversion tx fs cp nm ct hfile hsb)
            tx.journal
    intro q
    have hmain := ih (applyTxOp tx fs op).2.1 (applyTxOp tx fs op).2.2 hrest q
    exact hmain.trans (hstep q)

/-! ### Claim C3 -/

/-- Claim C3 (amended): a transaction made of `write_file` and
`delete_file` operations, dropped without commit, restores the
filesystem pointwise — so the set of files and directories (with
contents) equals the pre-transaction one — provided each successful
write's destination and temp path and each successful delete's backup
path did not pre-exist (the no-external-interference freshness
conditions); without the freshness proviso the claim fails, because a
write over an existing file is journaled as `Created` and rollback then
deletes it. -/
theorem drop_rollback_restores (cap : DirCapability) (id : String) (fs : Fs)
    (ops : List TxOp) (h : wdOk (FsTransaction.mkNew cap id) fs ops) :
    ∀ q, dropTx (applyTxOps (FsTransaction.mkNew cap id) fs ops).1
        (applyTxOps (FsTransaction.mkNew cap id) fs ops).2 q = fs q := by
  intro q
  have hc : (applyTxOps (FsTransaction.mkNew cap id) fs ops).1.committed =
      false := applyTxOps_committed ops (FsTransaction.mkNew cap id) fs
  unfold dropTx
  rw [hc]
  simp only [Bool.false_eq_true, if_false]
  exact applyTxOps_rollback ops (FsTransaction.mkNew cap id) fs h q

/-- Initial filesystem of the rollback scenario: root `r` containing
`original.txt` with content `original`. -/
def fsD : Fs := fsOfPairs [(["r"], .dir), (["r", "original.txt"], .file "original")]

/-- Full-permission capability rooted at `r`. -/
def capD : DirCapability := ⟨["r"], Permissions.full⟩

/-- The scenario transaction handle. -/
def txD : FsTransaction := FsTransaction.mkNew capD "T"

/-- Scenario operations: write `new.txt`, delete `original.txt`. -/
def opsD : List TxOp :=
  [.writeF ⟨false, [.normal "new.txt"]⟩ "new",
   .deleteF ⟨false, [.normal "original.txt"]⟩]

theorem wdOk_scenario : wdOk txD fsD opsD := by
  refine ⟨?_, ?_, trivial⟩
  · intro dst hdst
    have hr : txD.capability.resolve_for_creation fsD
        ⟨false, [.normal "new.txt"]⟩ = .ok ["r", "new.txt"] := by decide
    rw [hr] at hdst
    injection hdst with h'
    subst h'
    constructor
    · exact fsOfPairs_subtreeFree _ _ (by decide)
    · have htp : txD.temp_path ["r", "new.txt"] = ["r", ".new.txt.T.tmp"] := by
        decide
      rw [htp]
      exact fsOfPairs_subtreeFree _ _ (by decide)
  · intro f hf
    have hr2 : (applyTxOp txD fsD
        (.writeF ⟨false, [.normal "new.txt"]⟩ "new")).2.1.capability.resolve
        ((applyTxOp txD fsD
          (.writeF ⟨false, [.normal "new.txt"]⟩ "new")).2.2)
        ⟨false, [.normal "original.txt"]⟩ = .ok ["r", "original.txt"] := by
      decide
    rw [hr2] at hf
    injection hf with h'
    subst h'
    refine ⟨by decide, ?_⟩
    have htb : (applyTxOp txD fsD
        (.writeF ⟨false, [.normal "new.txt"]⟩ "new")).2.1.temp_path
        ["r", "original.txt"] = ["r", ".original.txt.T.tmp"] := by decide
    rw [htb]
    have hfs1 : (applyTxOp txD fsD
        (.writeF ⟨false, [.normal "new.txt"]⟩ "new")).2.2 =
        renamePath (fsInsert fsD (txD.temp_path ["r", "new.txt"]) (.file "new"))
          (txD.temp_path ["r", "new.txt"]) ["r", "new.txt"] := rfl
    rw [hfs1]
    exact subtreeFree_rename
      (subtreeFree_insert (fsOfPairs_subtreeFree _ _ (by decide)) (by decide) _)
      (by decide) (by decide)

/-- Witness for the amended C3: in the concrete scenario the drop
restores `original.txt` with its original content and removes
`new.txt`, while mid-transaction the changes were visible. -/
theorem drop_rollback_restores_witness :
    dropTx (applyTxOps txD fsD opsD).1 (applyTxOps txD fsD opsD).2
        ["r", "original.txt"] = some (.file "original") ∧
    dropTx (applyTxOps txD fsD opsD).1 (applyTxOps txD fsD opsD).2
        ["r", "new.txt"] = none ∧
    (applyTxOps txD fsD opsD).2 ["r", "original.txt"] = none ∧
    (applyTxOps txD fsD opsD).2 ["r", "new.txt"] = some (.file "new") :=
  ⟨(drop_rollback_restores capD "T" fsD opsD wdOk_scenario
      ["r", "original.txt"]).trans (by decide),
   (drop_rollback_restores capD "T" fsD opsD wdOk_scenario
      ["r", "new.txt"]).trans (by decide),
   by decide, by decide⟩

/-- Initial filesystem of the overwrite counterexample. -/
def fsE : Fs := fsOfPairs [(["r"], .dir), (["r", "old.txt"], .file "precious")]

/-- Counterexample for C3: a transaction that writes over the existing
`old.txt` and is dropped without commit does not restore the
pre-transaction state — `old.txt` is gone afterwards, so the set of
files differs from the original one. -/
theorem overwrite_rollback_loses_file :
    fsE ["r", "old.txt"] = some (.file "precious") ∧
    dropTx (applyTxOps (FsTransaction.mkNew capD "T") fsE
        [.writeF ⟨false, [.normal "old.txt"]⟩ "new"]).1
      (applyTxOps (FsTransaction.mkNew capD "T") fsE
        [.writeF ⟨false, [.normal "old.txt"]⟩ "new"]).2
      ["r", "old.txt"] = none := by
  decide

/-! ### Claim C6 -/

/-- Initial filesystem for the `create_dir_all` success case: root `r`
with a pre-existing subdirectory `a`. -/
def fsF : Fs := fsOfPairs [(["r"], .dir), (["r", "a"], .dir)]

/-- The path `a/b/c`, of which only `a` exists. -/
def rawABC : RawPath := ⟨false, [.normal "a", .normal "b", .normal "c"]⟩

/-- Loop invariant of `create_dir_all`: a successful walk extends the
local `created` list by exactly the directories it made, each absent
beforehand and a directory afterwards, with no duplicates, and every
change the walk made to the filesystem is one of them. -/
theorem createDirAllGo_spec (comps : List Comp) :
    ∀ (cap : DirCapability) (fs : Fs) (current : List Comp)
      (created : List CPath) (fs2 : Fs) (created2 : List CPath),
    createDirAllGo cap fs comps current created = (.ok (), fs2, created2) →
    ∃ newly : List CPath,
      created2 = created ++ newly ∧
      newly.Nodup ∧
      (∀ p ∈ newly, fs p = none ∧ fs2 p = some .dir) ∧
      (∀ q, fs2 q ≠ fs q → q ∈ newly) := by
  induction comps with
  | nil =>
    intro cap fs current created fs2 created2 h
    simp only [createDirAllGo] at h
    injection h with h1 h2
    injection h2 with h3 h4
    refine ⟨[], by rw [List.append_nil]; exact h4.symm, List.nodup_nil,
      by simp, ?_⟩
    intro q hq
    rw [← h3] at hq
    exact absurd rfl hq
  | cons c rest ih =>
    intro cap fs current created fs2 created2 h
    simp only [createDirAllGo] at h
    split at h
    · -- the component resolved
      split at h
      · exact ih _ _ _ _ _ _ h
      · exact absurd h (by simp)
    · -- the component did not resolve: it is created
      split at h
      · exact absurd h (by simp)
      · next p heq2 =>
        split at h
        · exact absurd h (by simp)
        · next hnone =>
          split at h
          · obtain ⟨newly2, hcr, hnd, hprops, hchg⟩ :=
              ih cap (fsInsert fs p .dir) (current ++ [c]) (created ++ [p])
                fs2 created2 h
            have hfsp : fs p = none := by
              cases hv : fs p with
              | none => rfl
              | some n => rw [hv] at hnone; exact absurd rfl hnone
            have hinsp : fsInsert fs p .dir p = some .dir :=
              fsInsert_self fs p .dir
            have hpnot : p ∉ newly2 := by
              intro hmem
              have hcon := (hprops p hmem).1
              rw [hinsp] at hcon
              exact Option.noConfusion hcon
            refine ⟨p :: newly2, ?_, List.nodup_cons.mpr ⟨hpnot, hnd⟩, ?_, ?_⟩
            · rw [hcr]
              simp
            · intro q hq
              rcases List.mem_cons.mp hq with rfl | hq2
              · refine ⟨hfsp, ?_⟩
                by_cases hch : fs2 q = fsInsert fs q .dir q
                · rw [hch, fsInsert_self]
                · exact absurd (hchg q hch) hpnot
              · obtain ⟨h1, h2⟩ := hprops q hq2
                have hqp : q ≠ p := by
                  intro hcon
                  rw [hcon, hinsp] at h1
                  exact Option.noConfusion h1
                rw [fsInsert_other fs p q .dir hqp] at h1
                exact ⟨h1, h2⟩
            · intro q hq
              by_cases hqp : q = p
              · rw [hqp]
                exact List.mem_cons_self p newly2
              · have h1 : fsInsert fs p .dir q = fs q :=
                  fsInsert_other fs p q .dir hqp
                have h2 : fs2 q ≠ fsInsert fs p .dir q := by
                  rw [h1]
                  exact hq
                exact List.mem_cons_of_mem _ (hchg q h2)
          · exact absurd h (by simp)
    · -- any other resolution error aborts the loop
      exact absurd h (by simp)

/-- Claim C6 (amended): whenever `create_dir_all` returns successfully,
it journals exactly one `CreatedDir` entry for each directory component
it actually created — each such path was absent beforehand and is a
directory afterwards, the created list has no duplicates, and every
on-disk change made by the call is one of the created directories — and
no entry for pre-existing components.  (After an error part-way
through, already-created components can remain unjournaled — see the
counterexample.) -/
theorem create_dir_all_journals_created (tx : FsTransaction) (fs : Fs)
    (path : RawPath) (h : (tx.create_dir_all fs path).1 = .ok ()) :
    ∃ created : List CPath,
      (tx.create_dir_all fs path).2.1.journal =
        tx.journal ++ created.map FsOp.createdDir ∧
      created.Nodup ∧
      (∀ p ∈ created, fs p = none ∧
        (tx.create_dir_all fs path).2.2 p = some .dir) ∧
      (∀ q, (tx.create_dir_all fs path).2.2 q ≠ fs q → q ∈ created) := by
  rcases hr : tx.create_dir_all fs path with ⟨r1, tx', fs'⟩
  rw [hr] at h
  simp only at h
  subst h
  simp only [FsTransaction.create_dir_all] at hr
  split at hr
  · injection hr with h1 _
    exact Except.noConfusion h1
  · split at hr
    · injection hr with h1 _
      exact Except.noConfusion h1
    · split at hr
      next fsg createdg hgo =>
        injection hr with h1 h2
        injection h2 with h3 h4
        obtain ⟨newly, hcr, hnd, hprops, hchg⟩ :=
          createDirAllGo_spec path.comps tx.capability fs [] [] fsg createdg hgo
        refine ⟨newly, ?_, hnd, ?_, ?_⟩
        · rw [← h3]
          simp only [List.nil_append] at hcr
          rw [hcr]
        · intro p hp
          rw [← h4]
          exact hprops p hp
        · intro q hq
          rw [← h4] at hq
          exact hchg q hq
      next e fsg createdg hgo =>
        injection hr with h1 _
        exact Except.noConfusion h1

/-- Witness for the amended C6: the concrete `a/b/c` walk with only `a`
pre-existing succeeds, and the theorem applies to it. -/
theorem create_dir_all_journals_created_witness :
    ∃ created : List CPath,
      ((FsTransaction.mkNew capD "T").create_dir_all fsF rawABC).2.1.journal =
        (FsTransaction.mkNew capD "T").journal ++ created.map FsOp.createdDir ∧
      created.Nodup ∧
      (∀ p ∈ created, fsF p = none ∧
        ((FsTransaction.mkNew capD "T").create_dir_all fsF rawABC).2.2 p =
          some .dir) ∧
      (∀ q, ((FsTransaction.mkNew capD "T").create_dir_all fsF rawABC).2.2 q ≠
          fsF q → q ∈ created) :=
  create_dir_all_journals_created (FsTransaction.mkNew capD "T") fsF rawABC
    (by decide)

/-- Filesystem for the `create_dir_all` failure case: directories `t`
and `t/X`, capability rooted at `t/X`. -/
def fsG : Fs := fsOfPairs [(["t"], .dir), (["t", "X"], .dir)]

/-- Full-permission capability rooted at `t/X`. -/
def capG : DirCapability := ⟨["t", "X"], Permissions.full⟩

/-- The path `a/../../x`: its first component is created, then the
walk escapes the root and fails. -/
def rawEsc : RawPath :=
  ⟨false, [.normal "a", .parentDir, .parentDir, .normal "x"]⟩

/-- Counterexample for C6: `create_dir_all("a/../../x")` creates the
directory `a` on disk, then fails with `PathTraversal` while walking
`a/../..`; the operation returns the error with the journal still
empty, so a visible on-disk change (the new directory `a`) corresponds
to no journal entry. -/
theorem create_dir_all_error_unjournaled :
    ((FsTransaction.mkNew capG "T").create_dir_all fsG rawEsc).1 =
      .error (.capability (.pathTraversal ["t", "X"]
        ⟨false, [.normal "a", .parentDir, .parentDir]⟩)) ∧
    fsG ["t", "X", "a"] = none ∧
    ((FsTransaction.mkNew capG "T").create_dir_all fsG rawEsc).2.2
      ["t", "X", "a"] = some .dir ∧
    ((FsTransaction.mkNew capG "T").create_dir_all fsG rawEsc).2.1.journal =
      [] := by
  decide

end Polysafe
